import Mathlib

/-!
Verification of the ratarmount single-file implementation against its
natural-language specification.

The Python source is embedded shallowly: byte streams become lists of
natural numbers (byte values), file paths become lists of characters,
SQLite tables become Lean lists, and each Python function of interest is
translated into an executable Lean definition.  Python exceptions are
modelled with `Except`; the distinct `raise` sites of a function get
distinct constructors of an error type.
-/

namespace Ratarmount

/-! ### Constants from the Python `stat` module -/

def S_IFDIR : Nat := 0o040000
def S_IFCHR : Nat := 0o020000
def S_IFIFO : Nat := 0o010000
def S_IFREG : Nat := 0o100000
def S_IFLNK : Nat := 0o120000
def S_IFMT  : Nat := 0o170000

def S_IRUSR : Nat := 0o400
def S_IXUSR : Nat := 0o100
def S_IRGRP : Nat := 0o040
def S_IXGRP : Nat := 0o010
def S_IROTH : Nat := 0o004
def S_IXOTH : Nat := 0o001

/-- Python `stat.S_ISREG`. -/
def S_ISREG (m : Nat) : Bool := m &&& S_IFMT == S_IFREG

/-- Python `stat.S_ISLNK`. -/
def S_ISLNK (m : Nat) : Bool := m &&& S_IFMT == S_IFLNK

/-! ### Constants from the Python `tarfile` module (type flag byte values) -/

def REGTYPE : Nat := 48       -- type flag byte "0"
def AREGTYPE : Nat := 0       -- type flag NUL byte
def LNKTYPE : Nat := 49       -- type flag byte "1"
def SYMTYPE : Nat := 50       -- type flag byte "2"
def CHRTYPE : Nat := 51       -- type flag byte "3"
def FIFOTYPE : Nat := 54      -- type flag byte "6"
def CONTTYPE : Nat := 55      -- type flag byte "7"
def DIRTYPE : Nat := 53       -- type flag byte "5"
def GNUTYPE_SPARSE : Nat := 83  -- type flag byte "S"

/-! ### StenciledFile

The Python class `StenciledFile` presents a virtual byte stream assembled
from `(offset, length)` stencils over a backing file.  The backing file
object is modelled by its byte contents (a `List Nat`) together with its
current read position, which is part of the `StenciledFile` state below
(field `bpos`).
-/

/-- Errors raised by the `StenciledFile` methods. -/
inductive StencilError
  | invalidSeek       -- "Trying to seek before the start of the file!"
  | assertionFailed   -- a Python `assert` statement fired
deriving DecidableEq

/-- State of a `StenciledFile` object plus the backing file object. -/
structure StenciledFile where
  backing : List Nat    -- byte contents of the backing file object
  offsets : List Nat    -- self.offsets
  sizes : List Nat      -- self.sizes
  cumsizes : List Nat   -- self.cumsizes
  offset : Nat          -- self.offset, the current virtual position
  bpos : Nat            -- current read position of the backing file object
deriving DecidableEq

/-- The constructor loop `cumsizes = [0]; for offset, size in stencils:
cumsizes.append(cumsizes[-1] + size)`. -/
def buildCumsizes (sizes : List Nat) : List Nat :=
  sizes.foldl (fun cs sz => cs ++ [cs.getLastD 0 + sz]) [0]

/-- Python `bisect.bisect_left(l, v)`: for a sorted list this returns the
number of elements strictly below `v` (the insertion point). -/
def bisectLeft (l : List Nat) (v : Nat) : Nat :=
  l.countP (fun c => decide (c < v))

/-- Method `_findStencil`: `bisect.bisect_left(self.cumsizes, offset+1) - 1`.
The two asserts of the method (`offset >= 0` and `i >= 0`) cannot fire:
offsets are naturals here, and `cumsizes` always starts with `0 <= offset`,
so the insertion point is at least one. -/
def findStencil (cumsizes : List Nat) (offset : Nat) : Nat :=
  bisectLeft cumsizes (offset + 1) - 1

/-- The value `self.cumsizes[-1]`, the total virtual size. -/
def StenciledFile.total (f : StenciledFile) : Nat :=
  f.cumsizes.getLastD 0

inductive Whence
  | seekSet   -- io.SEEK_SET
  | seekCur   -- io.SEEK_CUR
  | seekEnd   -- io.SEEK_END
deriving DecidableEq

/-- Method `StenciledFile.seek`.  The two asserts on
`offsetInsideStencil` are modelled as an error result; the nonnegativity
assert is trivially true over naturals. -/
def StenciledFile.seek (f : StenciledFile) (offset : Int) (whence : Whence) :
    Except StencilError StenciledFile :=
  let newOffset : Int :=
    match whence with
    | .seekCur => (f.offset : Int) + offset
    | .seekEnd => (f.total : Int) + offset
    | .seekSet => offset
  if newOffset < 0 then
    .error .invalidSeek
  else
    let o := newOffset.toNat
    if f.total ≤ o then
      .ok { f with offset := o }
    else
      let i := findStencil f.cumsizes o
      let offsetInsideStencil := o - f.cumsizes.getD i 0
      if offsetInsideStencil < f.sizes.getD i 0 then
        .ok { f with offset := o,
                     bpos := f.offsets.getD i 0 + offsetInsideStencil }
      else
        .error .assertionFailed

/-- The `while` loop of `StenciledFile.read`.  Loop state: the stencil
index `i`, the virtual position `offset`, the backing file position
`bpos` and the remaining request `size`.  Returns the bytes produced by
the loop together with the final `offset` and `bpos`.  The `fuel`
argument only bounds the number of iterations: each iteration either
increments `i` (bounded by the number of stencils) or decreases `size`,
so any fuel above `size + sizes.length` makes the zero-fuel clause
unreachable. -/
def readLoop (backing offsets sizes cumsizes : List Nat) :
    Nat → Nat → Nat → Nat → Nat → List Nat × Nat × Nat
  | 0, _, offset, bpos, _ => ([], offset, bpos)
  | fuel + 1, i, offset, bpos, size =>
    if 0 < size ∧ i < sizes.length then
      -- read as much as requested or as much as the current stencil still contains
      let readableSize := min size (sizes.getD i 0 - (offset - cumsizes.getD i 0))
      if readableSize = 0 then
        -- go to the next stencil
        if offsets.length ≤ i + 1 then
          ([], offset, bpos)    -- break
        else
          readLoop backing offsets sizes cumsizes fuel (i + 1) offset
            (offsets.getD (i + 1) 0) size
      else
        -- actually read data
        let tmp := (backing.drop bpos).take readableSize
        let r := readLoop backing offsets sizes cumsizes fuel i
          (offset + tmp.length) (bpos + tmp.length) (size - readableSize)
        (tmp ++ r.1, r.2.1, r.2.2)
    else
      ([], offset, bpos)

/-- Method `StenciledFile.read`.  A `size` of `-1` means read until the
end of the virtual stream; any other negative `size` skips the loop (the
Python loop condition is `size > 0`), which `Int.toNat` reproduces. -/
def StenciledFile.read (f : StenciledFile) (size : Int) : List Nat × StenciledFile :=
  let sz : Nat := if size = -1 then f.total - f.offset else size.toNat
  let i := findStencil f.cumsizes f.offset
  let r := readLoop f.backing f.offsets f.sizes f.cumsizes
    (sz + f.sizes.length + 1) i f.offset f.bpos sz
  (r.1, { f with offset := r.2.1, bpos := r.2.2 })

/-- The `StenciledFile` constructor: checks the asserts `offset >= 0`
(trivial over naturals) and `size > 0` for every stencil, builds the
cumulative sizes and finally calls `self.seek(0)`.  `bpos0` is the read
position the backing file object happens to have on entry. -/
def mkStenciledFile (backing : List Nat) (stencils : List (Nat × Nat))
    (bpos0 : Nat) : Except StencilError StenciledFile :=
  if stencils.all (fun st => 0 < st.2) then
    let f : StenciledFile :=
      { backing := backing
        offsets := stencils.map Prod.fst
        sizes := stencils.map Prod.snd
        cumsizes := buildCumsizes (stencils.map Prod.snd)
        offset := 0
        bpos := bpos0 }
    f.seek 0 .seekSet
  else
    .error .assertionFailed

/-- The content of a single stencil: the slice of the backing file it
designates. -/
def stencilSlice (backing : List Nat) (st : Nat × Nat) : List Nat :=
  (backing.drop st.1).take st.2

/-- The virtual byte stream a stenciled file presents: the concatenation
of the backing-file slices in stencil order. -/
def virtualContent (backing : List Nat) (stencils : List (Nat × Nat)) : List Nat :=
  (stencils.map (stencilSlice backing)).flatten

/-! ### The read path (class TarMount)

`TarMount.read`, `TarMount.readlink` and the hard-link dereference are
embedded over an abstract index: `fs` maps a virtual path (with leading
slash, as fusepy delivers it) to the `FileInfo` row found by
`SQLiteIndexedTar.getFileInfo`, and `stream` is the byte content of the
decompressed archive (`self.tarFile`).  Paths and link names are lists
of characters.
-/

/-- Python `s.lstrip("/")`. -/
def lstripSlash (s : List Char) : List Char :=
  s.dropWhile (fun c => c = '/')

/-- The namedtuple `SQLiteIndexedTar.FileInfo`
(`offsetheader offset size mtime mode type linkname uid gid istar issparse`).
The field `type` is spelled `ftype` because `type` is reserved in Lean. -/
structure FileInfo where
  offsetheader : Nat
  offset : Nat
  size : Nat
  mtime : Nat
  mode : Nat
  ftype : Nat
  linkname : List Char
  uid : Nat
  gid : Nat
  istar : Bool
  issparse : Bool
deriving DecidableEq

inductive FuseError
  | ENOENT
  | EIO
deriving DecidableEq

/-- The body of `TarMount.read` after the hard-link dereference block:
the sparse branch extracts the member through the external `tarfile`
library from a `StenciledFile` over the TAR block; that extraction is
outside the embedded core and is supplied as the parameter
`sparseRead`.  The regular branch seeks the decompressed archive stream
to `fileInfo.offset + offset` and reads `length` bytes. -/
def readDirect (stream : List Nat) (sparseRead : FileInfo → Nat → Nat → List Nat)
    (fileInfo : FileInfo) (length offset : Nat) : Except FuseError (List Nat) :=
  if fileInfo.issparse then
    .ok (sparseRead fileInfo length offset)
  else
    .ok ((stream.drop (fileInfo.offset + offset)).take length)

/-- Method `TarMount.read`.  The hard-link dereference issues an
unconditional recursive call `self.read(targetLink, ...)` whenever the
re-resolved target differs from the current path, so the Python function
need not terminate; `fuel` counts the remaining recursion depth and a
result of `none` means the Python call chain has not returned within
that depth. -/
def TarMount.read (fs : List Char → Option FileInfo) (stream : List Nat)
    (sparseRead : FileInfo → Nat → Nat → List Nat) :
    Nat → List Char → Nat → Nat → Option (Except FuseError (List Nat))
  | 0, _, _, _ => none
  | fuel + 1, path, length, offset =>
    match fs path with
    | none => some (.error .ENOENT)
    | some fileInfo =>
      if S_ISREG fileInfo.mode = false ∧ S_ISLNK fileInfo.mode = false ∧
          fileInfo.linkname ≠ [] then
        let targetLink := '/' :: lstripSlash fileInfo.linkname
        if targetLink ≠ path then
          TarMount.read fs stream sparseRead fuel targetLink length offset
        else
          some (readDirect stream sparseRead fileInfo length offset)
      else
        some (readDirect stream sparseRead fileInfo length offset)

/-- Method `TarMount.readlink`: look the path up and return its
`linkname` column. -/
def TarMount.readlink (fs : List Char → Option FileInfo) (path : List Char) :
    Except FuseError (List Char) :=
  match fs path with
  | none => .error .ENOENT
  | some fileInfo => .ok fileInfo.linkname

/-! ### Index validation (SQLiteIndexedTar.loadIndex)

`loadIndex` consults: the list of table names in the SQLite file, the
`versions` row named `index`, and the `st_size` / `st_mtime` entries of
the dictionary obtained from the `metadata` table (after substituting
the parsed `tarstats` JSON object when that key is present).  The
embedding records those lookup results directly.  Version numbers are
taken as naturals (indices written by this code always carry numeric
`major`/`minor`/`patch`).  A raised exception closes the SQL connection,
so an `error` result is exactly "the index does not count as loaded".
-/

inductive TableName
  | files
  | filestmp
  | parentfolders
  | versions
  | metadata
  | bzip2blocks
  | gzipindex
deriving DecidableEq

/-- One constructor per `raise` site inside the validation block of
`loadIndex`. -/
inductive LoadError
  | bz2LegacyIndex    -- bzip2 offsets from buggy versions 0.3.0 through 0.3.3
  | indexEmpty        -- "SQLite index is empty"
  | indexIncomplete   -- "SQLite index is incomplete"
  | tarSizeChanged    -- st_size mismatch against the archive
  | tarMtimeChanged   -- st_mtime mismatch against the archive
deriving DecidableEq

/-- The decision-relevant content of an index database. -/
structure IndexDb where
  tables : List TableName
  indexVersion : Option (Nat × Nat × Nat)   -- versions row named "index", as (major, minor, patch)
  stSizeStored : Option Int                 -- st_size looked up in the metadata values
  stMtimeStored : Option Int                -- st_mtime looked up in the metadata values
deriving DecidableEq

/-- The second metadata comparison of `loadIndex`: reject when a stored
`st_mtime` disagrees with the stat of the archive. -/
def checkStoredMtime (db : IndexDb) (stMtime : Int) : Except LoadError Unit :=
  match db.stMtimeStored with
  | some w => if stMtime ≠ w then .error .tarMtimeChanged else .ok ()
  | none => .ok ()

/-- The validation block of `SQLiteIndexedTar.loadIndex`; `stSize` and
`stMtime` are the current stat results for the archive file.  The
pre-sparse version check only prints warnings and is therefore invisible
in the result. -/
def loadIndexChecks (db : IndexDb) (stSize stMtime : Int) : Except LoadError Unit :=
  if db.tables.contains .bzip2blocks ∧ ¬ db.tables.contains .versions then
    .error .bz2LegacyIndex
  else if ¬ db.tables.contains .files then
    .error .indexEmpty
  else if db.tables.contains .filestmp ∨ db.tables.contains .parentfolders then
    .error .indexIncomplete
  else if db.tables.contains .metadata then
    match db.stSizeStored with
    | some v => if stSize ≠ v then .error .tarSizeChanged else checkStoredMtime db stMtime
    | none => checkStoredMtime db stMtime
  else
    .ok ()

/-- True when `loadIndex` raises, i.e. rejects the index. -/
def loadIndexRejects (db : IndexDb) (stSize stMtime : Int) : Bool :=
  match loadIndexChecks db stSize stMtime with
  | .ok _ => false
  | .error _ => true

/-! ### Start and end of index creation (SQLiteIndexedTar.createIndex)

Step 1 of `createIndex` lists the tables of the opened database and
raises when any of `files`, `filestmp`, `parentfolders` is among them;
only then does it create those three tables.  The `versions` table is
created at the end of the scan inside a `try` block whose failure is
only a printed warning, and the `metadata` table is created afterwards
by `_storeTarMetadata`, also under a warning-only `try`.  Tables are
modelled as (name, row count) pairs so that emptiness is expressible.
-/

inductive CreateError
  | tableAlreadyExists   -- "The index file ... already seems to contain a table"
deriving DecidableEq

/-- Step 1 of `createIndex`: the existence check followed by the

`CREATE TABLE` statements for `files`, `filestmp` and `parentfolders`. -/
def createIndexTableCheck (dbTables : List (TableName × Nat)) :
    Except CreateError (List (TableName × Nat)) :=
  let names := dbTables.map Prod.fst
  if names.contains .files ∨ names.contains .filestmp ∨ names.contains .parentfolders then
    .error .tableAlreadyExists
  else
    .ok (dbTables ++ [(.files, 0), (.filestmp, 0), (.parentfolders, 0)])

/-- Step 6 of `createIndex`: `CREATE TABLE versions` inside
`try ... except: print warning`.  Returns the table list and whether the
warning was printed. -/
def createVersionsTable (dbTables : List (TableName × Nat)) :
    List (TableName × Nat) × Bool :=
  if (dbTables.map Prod.fst).contains .versions then
    (dbTables, true)
  else
    (dbTables ++ [(.versions, 0)], false)

/-- `_storeTarMetadata`: `CREATE TABLE metadata` inside
`try ... except: print warning`, executed after `createIndex` returns. -/
def createMetadataTable (dbTables : List (TableName × Nat)) :
    List (TableName × Nat) × Bool :=
  if (dbTables.map Prod.fst).contains .metadata then
    (dbTables, true)
  else
    (dbTables ++ [(.metadata, 1)], false)

/-! ### TAR member records and the recursive-TAR step

`TarInfo` mirrors the fields of `tarfile.TarInfo` that the indexer
reads; the `is...` methods follow the `tarfile` type-flag conventions.
-/

structure TarInfo where
  name : List Char
  size : Nat
  mtime : Nat
  mode : Nat          -- permission bits from the TAR header
  typeflag : Nat
  linkname : List Char
  uid : Nat
  gid : Nat
  sparse : Bool       -- result of tarInfo.issparse()
deriving DecidableEq

/-- `tarfile` counts `REGTYPE`, `AREGTYPE`, `CONTTYPE` and
`GNUTYPE_SPARSE` as regular files. -/
def TarInfo.isfile (t : TarInfo) : Bool :=
  t.typeflag = REGTYPE || t.typeflag = AREGTYPE || t.typeflag = CONTTYPE ||
    t.typeflag = GNUTYPE_SPARSE

def TarInfo.isdir (t : TarInfo) : Bool := t.typeflag = DIRTYPE

def TarInfo.issym (t : TarInfo) : Bool := t.typeflag = SYMTYPE

def TarInfo.ischr (t : TarInfo) : Bool := t.typeflag = CHRTYPE

def TarInfo.isfifo (t : TarInfo) : Bool := t.typeflag = FIFOTYPE

/-- The mode assembly of the scan loop: OR the filesystem type bits onto
the permission bits according to the TAR type flag. -/
def memberMode (t : TarInfo) : Nat :=
  let m := t.mode
  let m := if t.isdir then m ||| S_IFDIR else m
  let m := if t.isfile then m ||| S_IFREG else m
  let m := if t.issym then m ||| S_IFLNK else m
  let m := if t.ischr then m ||| S_IFCHR else m
  let m := if t.isfifo then m ||| S_IFIFO else m
  m

/-- The mode rewrite applied when a nested `.tar` member was indexed
successfully: keep the permission bits, set the directory bit, and add
execute bits wherever read bits are present. -/
def dirModeOf (mode : Nat) : Nat :=
  let m := (mode &&& 0o777) ||| S_IFDIR
  let m := if m &&& S_IRUSR ≠ 0 then m ||| S_IXUSR else m
  let m := if m &&& S_IRGRP ≠ 0 then m ||| S_IXGRP else m
  let m := if m &&& S_IROTH ≠ 0 then m ||| S_IXOTH else m
  m

/-- Python `tarInfo.name.endswith(".tar")`. -/
def endsWithTar (name : List Char) : Bool :=
  List.isSuffixOf ['.', 't', 'a', 'r'] name

/-- Step 4 of the scan loop, "Open contained TARs for recursive
mounting".  `pos` is the read position of the outer archive file object;
the nested call to `createIndex` is abstracted by `inner`, which maps
the position it starts reading at (`globalOffset`) to the position it
leaves the file object at together with `true` on success and `false`
when it raised `tarfile.ReadError`.  Returns the mode to record, the
`istar` flag, and the file-object position after the block. -/
def recursiveTarStep (mountRecursively : Bool) (t : TarInfo) (mode0 : Nat)
    (pos globalOffset : Nat) (inner : Nat → Nat × Bool) : Nat × Bool × Nat :=
  if mountRecursively && t.isfile && endsWithTar t.name then
    let oldPos := pos
    let innerRun := inner globalOffset   -- seek to globalOffset, then the nested createIndex
    let mode1 := if innerRun.2 then dirModeOf mode0 else mode0
    (mode1, innerRun.2, oldPos)          -- fileObject.seek(oldPos)
  else
    (mode0, false, pos)

/-! ### Path splitting and the scan pipeline (createIndex steps 3 to 5)

Python strings are lists of characters here; `splitSlash`, `joinSlash`
and `rsplit1` are `s.split("/")`, `"/".join(...)` and
`s.rsplit("/", 1)` (the latter for strings that contain a slash, which
holds for every normalized member path because of the leading slash).
-/

def splitSlash : List Char → List (List Char)
  | [] => [[]]
  | c :: rest =>
    if c = '/' then
      [] :: splitSlash rest
    else
      match splitSlash rest with
      | [] => [[c]]            -- unreachable: splitSlash never returns []
      | p :: ps => (c :: p) :: ps

def joinSlash : List (List Char) → List Char
  | [] => []
  | [p] => p
  | p :: ps => p ++ '/' :: joinSlash ps

/-- Python `s.rsplit("/", 1)` for a string containing a slash. -/
def rsplit1 (s : List Char) : List Char × List Char :=
  let parts := splitSlash s
  (joinSlash parts.dropLast, parts.getLastD [])

/-- The pairs `("/".join(paths[:i]), paths[i])` for `i` in
`range(1, len(paths))` built by `_tryAddParentFolders`. -/
def ancestorPairsOf (path : List Char) : List (List Char × List Char) :=
  let paths := splitSlash path
  (List.range' 1 (paths.length - 1)).map
    (fun i => (joinSlash (paths.take i), paths.getD i []))

/-- One row of the `files` table (column order of the schema). -/
structure FileRow where
  path : List Char
  name : List Char
  offsetheader : Nat
  offset : Nat
  size : Nat
  mtime : Nat
  mode : Nat
  ftype : Nat
  linkname : List Char
  uid : Nat
  gid : Nat
  istar : Bool
  issparse : Bool
deriving DecidableEq

def rowKey (r : FileRow) : List Char × List Char := (r.path, r.name)

/-- SQL `INSERT OR REPLACE` against the primary key `(path, name)`:
drop any row with the same key, then insert. -/
def insertOrReplaceRow (files : List FileRow) (row : FileRow) : List FileRow :=
  files.filter (fun r => decide (rowKey r ≠ rowKey row)) ++ [row]

/-- SQL `INSERT OR IGNORE` for the `parentfolders` table with primary
key `(path, name)`. -/
def insertOrIgnorePair (tbl : List (List Char × List Char))
    (x : List Char × List Char) : List (List Char × List Char) :=
  if x ∈ tbl then tbl else tbl ++ [x]

/-- Scanner-side mutable state: the `files` and `parentfolders` tables
and the in-memory `parentFolderCache`.  (`filestmp` stays empty: the
`_setFileInfo` insert goes directly into `files`, so the final sorted
copy from `filestmp` is a no-op and is omitted.) -/
structure ScanState where
  files : List FileRow
  parentfolders : List (List Char × List Char)
  parentFolderCache : List (List Char × List Char)
deriving DecidableEq

/-- Method `_tryAddParentFolders`. -/
def tryAddParentFolders (st : ScanState) (path : List Char) : ScanState :=
  let paths := (ancestorPairsOf path).filter (fun p => decide (p ∉ st.parentFolderCache))
  if paths.isEmpty then
    st
  else
    let cache1 := st.parentFolderCache ++ paths
    -- shrink to the last eight entries on overflow (Python cache[-8:])
    let cache2 := if 16 < cache1.length then cache1.drop (cache1.length - 8) else cache1
    { st with
      parentFolderCache := cache2,
      parentfolders := paths.foldl insertOrIgnorePair st.parentfolders }

/-- One member as assembled by the scan loop just before `_setFileInfo`:
the normalized full path (leading slash, no trailing slash) plus the row
payload, with `mode` and `istar` already reflecting the recursive-TAR
outcome. -/
structure Member where
  fullPath : List Char
  offsetheader : Nat
  offset : Nat
  size : Nat
  mtime : Nat
  mode : Nat
  ftype : Nat
  linkname : List Char
  uid : Nat
  gid : Nat
  istar : Bool
  issparse : Bool
deriving DecidableEq

def memberRowOf (m : Member) : FileRow :=
  let pn := rsplit1 m.fullPath
  { path := pn.1, name := pn.2, offsetheader := m.offsetheader, offset := m.offset,
    size := m.size, mtime := m.mtime, mode := m.mode, ftype := m.ftype,
    linkname := m.linkname, uid := m.uid, gid := m.gid,
    istar := m.istar, issparse := m.issparse }

/-- Method `_setFileInfo`: insert the row, then try to add the parent
folders of its `path` column. -/
def setFileInfo (st : ScanState) (m : Member) : ScanState :=
  let row := memberRowOf m
  tryAddParentFolders { st with files := insertOrReplaceRow st.files row } row.path

/-- A synthesized directory row, as produced by the final
`INSERT OR IGNORE ... SELECT path,name,0,0,1,0,...` from
`parentfolders`. -/
def synthRow (p n : List Char) : FileRow :=
  { path := p, name := n, offsetheader := 0, offset := 0, size := 1, mtime := 0,
    mode := 0o555 ||| S_IFDIR, ftype := DIRTYPE, linkname := [], uid := 0, gid := 0,
    istar := false, issparse := false }

def hasKey (files : List FileRow) (k : List Char × List Char) : Bool :=
  files.any (fun r => decide (rowKey r = k))

/-- One step of the final `INSERT OR IGNORE INTO files ... FROM
parentfolders`: the row is dropped when the key is already present. -/
def addSynthRow (files : List FileRow) (pr : List Char × List Char) : List FileRow :=
  if hasKey files pr then files else files ++ [synthRow pr.1 pr.2]

/-- Step 5 of `createIndex`: synthesize directory rows for all recorded
parent folders (the `ORDER BY` only affects physical row order, not the
resulting table content). -/
def finalizeIndex (st : ScanState) : List FileRow :=
  st.parentfolders.foldl addSynthRow st.files

def emptyScanState : ScanState :=
  { files := [], parentfolders := [], parentFolderCache := [] }

/-- The `files` table produced by indexing the given member sequence. -/
def createIndexScan (members : List Member) : List FileRow :=
  finalizeIndex (members.foldl setFileInfo emptyScanState)

/-- The directory part of a member path. -/
def dirOf (s : List Char) : List Char := (rsplit1 s).1

/-- The `(path, name)` key a member ends up under. -/
def keyOf (m : Member) : List Char × List Char := rowKey (memberRowOf m)

/-- Well-formedness of a normalized member path, as guaranteed by the
`"/" + os.path.normpath(name).lstrip("/")` computation: a leading slash,
at least one component, and no empty, slash-containing component. -/
def WFPath (s : List Char) : Prop :=
  ∃ comps, splitSlash s = [] :: comps ∧ comps ≠ [] ∧ ∀ c ∈ comps, c ≠ []

/-! ### Auxiliary forms used by the proofs -/

/-- Partial sums starting from `a`; the canonical form of
`buildCumsizes` used in proofs. -/
def sumsFrom (a : Nat) : List Nat → List Nat
  | [] => []
  | s :: r => (a + s) :: sumsFrom (a + s) r

/-- The fields a `StenciledFile` over `backing` and `stencils` carries
(everything except the two positions). -/
def WFStenciled (backing : List Nat) (stencils : List (Nat × Nat))
    (f : StenciledFile) : Prop :=
  f.backing = backing ∧ f.offsets = stencils.map Prod.fst ∧
    f.sizes = stencils.map Prod.snd ∧
    f.cumsizes = buildCumsizes (stencils.map Prod.snd)

/-- All stencils designate ranges inside the backing file. -/
def StencilsInBounds (backing : List Nat) (stencils : List (Nat × Nat)) : Prop :=
  ∀ st ∈ stencils, st.1 + st.2 ≤ backing.length

/-- The rejection condition exactly as the claim states it (this follows
the claim wording, not the code): `files` absent, or `filestmp` or
`parentfolders` present, or a stored tarstats field disagreeing with the
current stat. -/
def claimedLoadRejects (db : IndexDb) (stSize stMtime : Int) : Bool :=
  !db.tables.contains .files || db.tables.contains .filestmp ||
    db.tables.contains .parentfolders ||
    (db.tables.contains .metadata &&
      ((match db.stSizeStored with
        | some v => decide (v ≠ stSize)
        | none => false) ||
       (match db.stMtimeStored with
        | some w => decide (w ≠ stMtime)
        | none => false)))

/-- The rejection condition exactly as the claim about `createIndex`
states it (this follows the claim wording, not the code): some table
among the five exists non-empty. -/
def claimedCreateRejects (dbTables : List (TableName × Nat)) : Bool :=
  dbTables.any (fun t =>
    (t.1 = TableName.files || t.1 = TableName.filestmp ||
      t.1 = TableName.parentfolders || t.1 = TableName.versions ||
      t.1 = TableName.metadata) && decide (0 < t.2))

/-! ### Concrete inputs used by counterexamples and witnesses -/

/-- A sparse-extraction stand-in (no claim below touches the sparse
branch with it). -/
def noSparse : FileInfo → Nat → Nat → List Nat := fun _ _ _ => []

/-- Example archive for C1: one regular one-byte member `/a` whose
content `[65]` sits at stream offset 2, followed by TAR zero padding. -/
def c1fi : FileInfo :=
  { offsetheader := 0, offset := 2, size := 1, mtime := 0, mode := 0o100644,
    ftype := REGTYPE, linkname := [], uid := 0, gid := 0,
    istar := false, issparse := false }

def c1fs : List Char → Option FileInfo :=
  fun p => if p = ['/', 'a'] then some c1fi else none

def c1stream : List Nat := [7, 7, 65, 0]

/-- Example for C2: a hard-link member `/h` whose link target resolves
back to `/h` itself. -/
def c2fi : FileInfo :=
  { offsetheader := 0, offset := 0, size := 0, mtime := 0, mode := 0o644,
    ftype := LNKTYPE, linkname := ['h'], uid := 0, gid := 0,
    istar := false, issparse := false }

def c2fs : List Char → Option FileInfo :=
  fun p => if p = ['/', 'h'] then some c2fi else none

/-- Example for C2: mutual hard links `/a -> b` and `/b -> a`. -/
def c2fiA : FileInfo :=
  { offsetheader := 0, offset := 0, size := 0, mtime := 0, mode := 0o644,
    ftype := LNKTYPE, linkname := ['b'], uid := 0, gid := 0,
    istar := false, issparse := false }

def c2fiB : FileInfo :=
  { offsetheader := 0, offset := 0, size := 0, mtime := 0, mode := 0o644,
    ftype := LNKTYPE, linkname := ['a'], uid := 0, gid := 0,
    istar := false, issparse := false }

def c2fsAB : List Char → Option FileInfo :=
  fun p =>
    if p = ['/', 'a'] then some c2fiA
    else if p = ['/', 'b'] then some c2fiB
    else none

/-- Example archive for C3 with real TAR geometry: header of `a.txt` at
offset 0, its ten digit bytes at 512, zero padding to 1024, the symlink
header at 1024, and end-of-archive zero blocks from 1536. -/
def digitBytes : List Nat := [48, 49, 50, 51, 52, 53, 54, 55, 56, 57]

def c3stream : List Nat :=
  List.replicate 512 1 ++ digitBytes ++ List.replicate 502 0 ++
    List.replicate 512 2 ++ List.replicate 1024 0

def c3fiTxt : FileInfo :=
  { offsetheader := 0, offset := 512, size := 10, mtime := 0, mode := 0o100644,
    ftype := REGTYPE, linkname := [], uid := 0, gid := 0,
    istar := false, issparse := false }

def c3fiLink : FileInfo :=
  { offsetheader := 1024, offset := 1536, size := 0, mtime := 0, mode := 0o120777,
    ftype := SYMTYPE, linkname := ['a', '.', 't', 'x', 't'], uid := 0, gid := 0,
    istar := false, issparse := false }

def c3pathTxt : List Char := ['/', 'a', '.', 't', 'x', 't']

def c3pathLink : List Char := ['/', 'l', 'i', 'n', 'k']

def c3fs : List Char → Option FileInfo :=
  fun p =>
    if p = c3pathTxt then some c3fiTxt
    else if p = c3pathLink then some c3fiLink
    else none

/-- Example for C5: an index carrying a bzip2 offset table but no
`versions` table.  None of the rejection conditions listed by the claim
holds for it. -/
def c5db : IndexDb :=
  { tables := [.files, .bzip2blocks], indexVersion := none,
    stSizeStored := none, stMtimeStored := none }

/-- Example members for C6: a regular file `/a` and a member `/a/b`
below it, so the ancestor `a` is occupied by a non-directory. -/
def c6memberA : Member :=
  { fullPath := ['/', 'a'], offsetheader := 0, offset := 512, size := 3,
    mtime := 7, mode := 0o100644, ftype := REGTYPE, linkname := [],
    uid := 1, gid := 2, istar := false, issparse := false }

def c6memberAB : Member :=
  { fullPath := ['/', 'a', '/', 'b'], offsetheader := 1024, offset := 1536,
    size := 1, mtime := 7, mode := 0o100644, ftype := REGTYPE, linkname := [],
    uid := 1, gid := 2, istar := false, issparse := false }

/-- Example for C10: a one-stencil file of total size 1 whose backing
position is 0. -/
def c10file : StenciledFile :=
  { backing := [1], offsets := [0], sizes := [1], cumsizes := [0, 1],
    offset := 0, bpos := 0 }

/-- Example for C4: the stenciled file over backing `[10, 20, 30]` and
the single stencil `(1, 2)` right after construction, and after
`seek(1)`. -/
def c4file0 : StenciledFile :=
  { backing := [10, 20, 30], offsets := [1], sizes := [2], cumsizes := [0, 2],
    offset := 0, bpos := 1 }

def c4file1 : StenciledFile :=
  { backing := [10, 20, 30], offsets := [1], sizes := [2], cumsizes := [0, 2],
    offset := 1, bpos := 2 }

/-- Example for C7: a regular member named `inner.tar`. -/
def c7tarInfo : TarInfo :=
  { name := ['i', 'n', 'n', 'e', 'r', '.', 't', 'a', 'r'], size := 2048,
    mtime := 3, mode := 0o644, typeflag := REGTYPE, linkname := [],
    uid := 0, gid := 0, sparse := false }

/-! ## Theorems -/

/-! ### Generic helper lemmas -/

theorem readLoop_size_zero (backing offsets sizes cumsizes : List Nat)
    (fuel i offset bpos : Nat) :
    readLoop backing offsets sizes cumsizes fuel i offset bpos 0 = ([], offset, bpos) := by
  cases fuel <;> simp [readLoop]

/-! ### Prefix sums and the bisection search of StenciledFile -/

theorem sumsFrom_length (l : List Nat) : ∀ a, (sumsFrom a l).length = l.length := by
  induction l with
  | nil => intro a; rfl
  | cons s r ih => intro a; simp [sumsFrom, ih]

theorem buildCumsizes_go (l : List Nat) : ∀ (cs : List Nat) (a : Nat),
    l.foldl (fun cs sz => cs ++ [cs.getLastD 0 + sz]) (cs ++ [a]) =
      cs ++ [a] ++ sumsFrom a l := by
  induction l with
  | nil => intro cs a; simp [sumsFrom]
  | cons s r ih =>
    intro cs a
    rw [List.foldl_cons]
    have h1 : (cs ++ [a]) ++ [(cs ++ [a]).getLastD 0 + s] = (cs ++ [a]) ++ [a + s] := by
      rw [List.getLastD_concat]
    rw [h1, ih (cs ++ [a]) (a + s)]
    simp [sumsFrom]

theorem buildCumsizes_eq (sizes : List Nat) :
    buildCumsizes sizes = 0 :: sumsFrom 0 sizes := by
  have h := buildCumsizes_go sizes [] 0
  simpa [buildCumsizes] using h

theorem sumsFrom_mem_gt {l : List Nat} (hpos : ∀ s ∈ l, 0 < s) :
    ∀ a, ∀ x ∈ sumsFrom a l, a < x := by
  induction l with
  | nil => intro a x hx; simp [sumsFrom] at hx
  | cons s r ih =>
    intro a x hx
    simp only [sumsFrom, List.mem_cons] at hx
    have hs : 0 < s := hpos s (by simp)
    rcases hx with rfl | hx
    · omega
    · have h2 := ih (fun t ht => hpos t (by simp [ht])) (a + s) x hx
      omega

theorem sumsFrom_mem_le (l : List Nat) : ∀ a, ∀ x ∈ sumsFrom a l, x ≤ a + l.sum := by
  induction l with
  | nil => intro a x hx; simp [sumsFrom] at hx
  | cons s r ih =>
    intro a x hx
    simp only [sumsFrom, List.mem_cons] at hx
    rcases hx with rfl | hx
    · simp only [List.sum_cons]
      omega
    · have h2 := ih (a + s) x hx
      simp only [List.sum_cons]
      omega

theorem sumsFrom_getD (l : List Nat) : ∀ (a k : Nat), k ≤ l.length →
    (a :: sumsFrom a l).getD k 0 = a + (l.take k).sum := by
  induction l with
  | nil =>
    intro a k hk
    have : k = 0 := by simpa using hk
    simp [this]
  | cons s r ih =>
    intro a k hk
    cases k with
    | zero => simp
    | succ k =>
      have h1 : (a :: sumsFrom a (s :: r)).getD (k + 1) 0 =
          ((a + s) :: sumsFrom (a + s) r).getD k 0 := by
        simp [sumsFrom]
      rw [h1, ih (a + s) k (by simpa using hk)]
      simp only [List.take_succ_cons, List.sum_cons]
      omega

theorem sumsFrom_getLastD (l : List Nat) : ∀ a, (sumsFrom a l).getLastD a = a + l.sum := by
  induction l with
  | nil => intro a; simp [sumsFrom]
  | cons s r ih =>
    intro a
    have h1 : sumsFrom a (s :: r) = (a + s) :: sumsFrom (a + s) r := rfl
    rw [h1, List.getLastD_cons, ih (a + s)]
    simp only [List.sum_cons]
    omega

/-- The insertion point `bisect_left(cumsizes, v + 1)` of a position `v`
strictly inside the covered range: it is between 1 and the number of
stencils, and brackets `v` between two consecutive cumulative sizes. -/
theorem bisect_core (l : List Nat) : ∀ (a v : Nat), (∀ s ∈ l, 0 < s) → a ≤ v →
    v < a + l.sum →
    1 ≤ bisectLeft (a :: sumsFrom a l) (v + 1) ∧
    bisectLeft (a :: sumsFrom a l) (v + 1) ≤ l.length ∧
    (a :: sumsFrom a l).getD (bisectLeft (a :: sumsFrom a l) (v + 1) - 1) 0 ≤ v ∧
    v < (a :: sumsFrom a l).getD (bisectLeft (a :: sumsFrom a l) (v + 1)) 0 := by
  induction l with
  | nil => intro a v _ hav hlt; simp at hlt; omega
  | cons s r ih =>
    intro a v hpos hav hlt
    have hs : 0 < s := hpos s (by simp)
    have hcons : sumsFrom a (s :: r) = (a + s) :: sumsFrom (a + s) r := rfl
    have hsplit : bisectLeft (a :: sumsFrom a (s :: r)) (v + 1) =
        bisectLeft ((a + s) :: sumsFrom (a + s) r) (v + 1) + 1 := by
      rw [hcons]
      simp only [bisectLeft, List.countP_cons]
      have hd : decide (a < v + 1) = true := by
        simp only [decide_eq_true_eq]
        omega
      simp [hd]
    by_cases hcase : v < a + s
    · have hzero : bisectLeft ((a + s) :: sumsFrom (a + s) r) (v + 1) = 0 := by
        simp only [bisectLeft]
        rw [List.countP_eq_zero]
        intro x hx
        simp only [List.mem_cons] at hx
        rcases hx with rfl | hx
        · simp; omega
        · have := sumsFrom_mem_gt (fun t ht => hpos t (by simp [ht])) (a + s) x hx
          simp; omega
      rw [hsplit, hzero]
      refine ⟨by omega, by simp, ?_, ?_⟩
      · simpa using hav
      · rw [hcons]
        simpa using hcase
    · have hrec := ih (a + s) v (fun t ht => hpos t (by simp [ht])) (by omega)
        (by simp at hlt ⊢; omega)
      obtain ⟨h1, h2, h3, h4⟩ := hrec
      obtain ⟨k, hk⟩ : ∃ k, bisectLeft ((a + s) :: sumsFrom (a + s) r) (v + 1) = k + 1 :=
        ⟨_, (Nat.succ_pred_eq_of_pos h1).symm⟩
      rw [hsplit, hk]
      rw [hk] at h2 h3 h4
      refine ⟨by omega, by simpa using h2, ?_, ?_⟩
      · have e1 : k + 1 + 1 - 1 = k + 1 := rfl
        have e2 : k + 1 - 1 = k := rfl
        rw [e1, List.getD_cons_succ, hcons]
        rw [e2] at h3
        exact h3
      · rw [List.getD_cons_succ, hcons, List.getD_cons_succ]
        rw [List.getD_cons_succ] at h4
        exact h4

/-- `_findStencil` on a position strictly inside the covered range. -/
theorem findStencil_lt (sizes : List Nat) (off : Nat)
    (hpos : ∀ s ∈ sizes, 0 < s) (hoff : off < sizes.sum) :
    findStencil (0 :: sumsFrom 0 sizes) off < sizes.length ∧
    (sizes.take (findStencil (0 :: sumsFrom 0 sizes) off)).sum ≤ off ∧
    off < (sizes.take (findStencil (0 :: sumsFrom 0 sizes) off + 1)).sum := by
  obtain ⟨h1, h2, h3, h4⟩ := bisect_core sizes 0 off hpos (Nat.zero_le _) (by omega)
  unfold findStencil
  obtain ⟨k, hk⟩ : ∃ k, bisectLeft (0 :: sumsFrom 0 sizes) (off + 1) = k + 1 :=
    ⟨_, (Nat.succ_pred_eq_of_pos h1).symm⟩
  rw [hk] at h2 h3 h4 ⊢
  have hg1 : (0 :: sumsFrom 0 sizes).getD k 0 = (sizes.take k).sum := by
    have := sumsFrom_getD sizes 0 k (by omega)
    simpa using this
  have hg2 : (0 :: sumsFrom 0 sizes).getD (k + 1) 0 = (sizes.take (k + 1)).sum := by
    have := sumsFrom_getD sizes 0 (k + 1) (by omega)
    simpa using this
  simp only [Nat.add_sub_cancel] at h3 ⊢
  rw [hg1] at h3
  rw [hg2] at h4
  exact ⟨by omega, h3, h4⟩

/-- `_findStencil` at or past the end returns the number of stencils. -/
theorem findStencil_ge (sizes : List Nat) (off : Nat) (hoff : sizes.sum ≤ off) :
    findStencil (0 :: sumsFrom 0 sizes) off = sizes.length := by
  unfold findStencil
  have hall : bisectLeft (0 :: sumsFrom 0 sizes) (off + 1) =
      sizes.length + 1 := by
    simp only [bisectLeft]
    have : ∀ x ∈ (0 :: sumsFrom 0 sizes), decide (x < off + 1) = true := by
      intro x hx
      simp only [List.mem_cons] at hx
      rcases hx with rfl | hx
      · simp
      · have := sumsFrom_mem_le sizes 0 x hx
        simp; omega
    calc (0 :: sumsFrom 0 sizes).countP (fun c => decide (c < off + 1))
        = (0 :: sumsFrom 0 sizes).length := by
          rw [List.countP_eq_length]
          exact this
      _ = sizes.length + 1 := by simp [sumsFrom_length]
  rw [hall]
  omega

/-! ### The virtual content of a stenciled file -/

theorem take_succ_sum (l : List Nat) (i : Nat) (h : i < l.length) :
    (l.take (i + 1)).sum = (l.take i).sum + l.getD i 0 := by
  rw [List.take_succ, List.sum_append]
  congr 1
  rw [List.getElem?_eq_getElem h]
  rw [List.getD_eq_getElem?_getD]
  rw [List.getElem?_eq_getElem h]
  simp

theorem stencilSlice_length {backing : List Nat} {st : Nat × Nat}
    (h : st.1 + st.2 ≤ backing.length) :
    (stencilSlice backing st).length = st.2 := by
  simp only [stencilSlice, List.length_take, List.length_drop]
  omega

theorem virtualContent_cons (backing : List Nat) (st : Nat × Nat)
    (rest : List (Nat × Nat)) :
    virtualContent backing (st :: rest) =
      stencilSlice backing st ++ virtualContent backing rest := by
  simp [virtualContent]

theorem virtualContent_length (backing : List Nat) :
    ∀ (stencils : List (Nat × Nat)),
      (∀ st ∈ stencils, st.1 + st.2 ≤ backing.length) →
      (virtualContent backing stencils).length = (stencils.map Prod.snd).sum := by
  intro stencils
  induction stencils with
  | nil => intro _; simp [virtualContent]
  | cons st rest ih =>
    intro hb
    rw [virtualContent_cons, List.length_append,
      stencilSlice_length (hb st (by simp)),
      ih (fun t ht => hb t (by simp [ht]))]
    simp

theorem virtualContent_drop (backing : List Nat) :
    ∀ (stencils : List (Nat × Nat)) (i : Nat),
      (∀ st ∈ stencils, st.1 + st.2 ≤ backing.length) → i ≤ stencils.length →
      (virtualContent backing stencils).drop (((stencils.map Prod.snd).take i).sum) =
        virtualContent backing (stencils.drop i) := by
  intro stencils
  induction stencils with
  | nil =>
    intro i _ hi
    have : i = 0 := by simpa using hi
    simp [this]
  | cons st rest ih =>
    intro i hb hi
    cases i with
    | zero => simp
    | succ i =>
      rw [virtualContent_cons]
      have h1 : ((st :: rest).map Prod.snd).take (i + 1) =
          st.2 :: (rest.map Prod.snd).take i := by
        simp [List.take_succ_cons]
      rw [h1, List.sum_cons]
      rw [← stencilSlice_length (hb st (by simp))]
      rw [List.drop_append]
      exact ih i (fun t ht => hb t (by simp [ht])) (by simpa using hi)

/-! ### Correctness of the read loop -/

/-- One unfolding step of `readLoop` with its local bindings expanded
(definitionally equal). -/
theorem readLoop_succ_eq (backing offsets sizes cumsizes : List Nat)
    (fuel i offset bpos size : Nat) :
    readLoop backing offsets sizes cumsizes (fuel + 1) i offset bpos size =
      (if 0 < size ∧ i < sizes.length then
        (if min size (sizes.getD i 0 - (offset - cumsizes.getD i 0)) = 0 then
          (if offsets.length ≤ i + 1 then
            ([], offset, bpos)
          else
            readLoop backing offsets sizes cumsizes fuel (i + 1) offset
              (offsets.getD (i + 1) 0) size)
        else
          ((backing.drop bpos).take
              (min size (sizes.getD i 0 - (offset - cumsizes.getD i 0))) ++
            (readLoop backing offsets sizes cumsizes fuel i
              (offset + ((backing.drop bpos).take
                (min size (sizes.getD i 0 - (offset - cumsizes.getD i 0)))).length)
              (bpos + ((backing.drop bpos).take
                (min size (sizes.getD i 0 - (offset - cumsizes.getD i 0)))).length)
              (size - min size (sizes.getD i 0 - (offset - cumsizes.getD i 0)))).1,
            (readLoop backing offsets sizes cumsizes fuel i
              (offset + ((backing.drop bpos).take
                (min size (sizes.getD i 0 - (offset - cumsizes.getD i 0)))).length)
              (bpos + ((backing.drop bpos).take
                (min size (sizes.getD i 0 - (offset - cumsizes.getD i 0)))).length)
              (size - min size (sizes.getD i 0 - (offset - cumsizes.getD i 0)))).2.1,
            (readLoop backing offsets sizes cumsizes fuel i
              (offset + ((backing.drop bpos).take
                (min size (sizes.getD i 0 - (offset - cumsizes.getD i 0)))).length)
              (bpos + ((backing.drop bpos).take
                (min size (sizes.getD i 0 - (offset - cumsizes.getD i 0)))).length)
              (size - min size (sizes.getD i 0 - (offset - cumsizes.getD i 0)))).2.2))
      else
        ([], offset, bpos)) := rfl

/-- Main correctness of the read loop over a well-formed stencil list:
starting inside stencil `i` with the backing position synchronized, the
loop returns exactly the next `size` bytes of the virtual content. -/
theorem readLoop_correct (backing : List Nat) (stencils : List (Nat × Nat))
    (hb : ∀ st ∈ stencils, st.1 + st.2 ≤ backing.length) :
    ∀ (fuel i offset bpos size : Nat),
      size + (stencils.length - i) < fuel →
      (i = stencils.length ∧ (stencils.map Prod.snd).sum ≤ offset ∨
        (i < stencils.length ∧ ((stencils.map Prod.snd).take i).sum ≤ offset ∧
          offset ≤ ((stencils.map Prod.snd).take (i + 1)).sum ∧
          bpos = (stencils.map Prod.fst).getD i 0 +
            (offset - ((stencils.map Prod.snd).take i).sum))) →
      (readLoop backing (stencils.map Prod.fst) (stencils.map Prod.snd)
          (0 :: sumsFrom 0 (stencils.map Prod.snd)) fuel i offset bpos size).1 =
        ((virtualContent backing stencils).drop offset).take size := by
  intro fuel
  induction fuel with
  | zero => intro i offset bpos size hlt _; omega
  | succ fuel ih =>
    intro i offset bpos size hfuel hinv
    have hlen : (stencils.map Prod.snd).length = stencils.length := by simp
    have holen : (stencils.map Prod.fst).length = stencils.length := by simp
    rw [readLoop_succ_eq]
    by_cases hc : 0 < size ∧ i < (stencils.map Prod.snd).length
    case neg =>
      rw [if_neg hc]
      push_neg at hc
      by_cases hsz : size = 0
      · simp [hsz]
      · have hige : (stencils.map Prod.snd).length ≤ i := by
          have := hc (by omega)
          omega
        rcases hinv with ⟨_, hsum⟩ | ⟨hlt', _⟩
        · have hdrop : (virtualContent backing stencils).drop offset = [] := by
            apply List.drop_eq_nil_of_le
            rw [virtualContent_length backing stencils hb]
            exact hsum
          simp [hdrop]
        · omega
    case pos =>
      rw [if_pos hc]
      obtain ⟨hszpos, hilt0⟩ := hc
      have hilt : i < stencils.length := by omega
      rcases hinv with ⟨hieq, _⟩ | ⟨_, hlo, hhi, hbpos⟩
      · omega
      have hgi : (0 :: sumsFrom 0 (stencils.map Prod.snd)).getD i 0 =
          ((stencils.map Prod.snd).take i).sum := by
        have h := sumsFrom_getD (stencils.map Prod.snd) 0 i (by omega)
        simpa using h
      have hsgetD : (stencils.map Prod.snd).getD i 0 = stencils[i].2 := by
        rw [List.getD_eq_getElem?_getD, List.getElem?_eq_getElem (by omega)]
        simp
      have hogetD : (stencils.map Prod.fst).getD i 0 = stencils[i].1 := by
        rw [List.getD_eq_getElem?_getD, List.getElem?_eq_getElem (by omega)]
        simp
      have hsucc : ((stencils.map Prod.snd).take (i + 1)).sum =
          ((stencils.map Prod.snd).take i).sum + stencils[i].2 := by
        rw [take_succ_sum _ _ (by omega), hsgetD]
      have hδle : offset - ((stencils.map Prod.snd).take i).sum ≤ stencils[i].2 := by
        omega
      rw [hgi, hsgetD]
      by_cases hr : min size
          (stencils[i].2 - (offset - ((stencils.map Prod.snd).take i).sum)) = 0
      · rw [if_pos hr]
        have hoff_eq : offset = ((stencils.map Prod.snd).take (i + 1)).sum := by
          rcases Nat.min_eq_zero_iff.mp hr with h0 | h0
          · omega
          · omega
        by_cases hbr : (stencils.map Prod.fst).length ≤ i + 1
        · rw [if_pos hbr]
          have htake_all : (stencils.map Prod.snd).take (i + 1) =
              stencils.map Prod.snd := by
            apply List.take_of_length_le
            omega
          have hdrop : (virtualContent backing stencils).drop offset = [] := by
            apply List.drop_eq_nil_of_le
            rw [virtualContent_length backing stencils hb]
            rw [hoff_eq, htake_all]
          simp [hdrop]
        · rw [if_neg hbr]
          apply ih
          · omega
          · right
            have hi1 : i + 1 < stencils.length := by omega
            have h2 := take_succ_sum (stencils.map Prod.snd) (i + 1) (by omega)
            exact ⟨hi1, by omega, by omega, by omega⟩
      · rw [if_neg hr]
        have hrs_pos : 0 <
            min size (stencils[i].2 - (offset - ((stencils.map Prod.snd).take i).sum)) :=
          Nat.pos_of_ne_zero hr
        have hrs_le : min size
            (stencils[i].2 - (offset - ((stencils.map Prod.snd).take i).sum)) ≤ size :=
          Nat.min_le_left _ _
        have hrs_rem : min size
            (stencils[i].2 - (offset - ((stencils.map Prod.snd).take i).sum)) ≤
            stencils[i].2 - (offset - ((stencils.map Prod.snd).take i).sum) :=
          Nat.min_le_right _ _
        have hboundi : stencils[i].1 + stencils[i].2 ≤ backing.length :=
          hb _ (List.getElem_mem hilt)
        have hbpos' : bpos = stencils[i].1 +
            (offset - ((stencils.map Prod.snd).take i).sum) := by
          rw [hbpos, hogetD]
        have htmplen : ((backing.drop bpos).take
            (min size (stencils[i].2 -
              (offset - ((stencils.map Prod.snd).take i).sum)))).length =
            min size (stencils[i].2 -
              (offset - ((stencils.map Prod.snd).take i).sum)) := by
          rw [List.length_take, List.length_drop]
          have : bpos + min size (stencils[i].2 -
              (offset - ((stencils.map Prod.snd).take i).sum)) ≤ backing.length := by
            omega
          omega
        have hvc1 : (virtualContent backing stencils).drop offset =
            (stencilSlice backing stencils[i]).drop
              (offset - ((stencils.map Prod.snd).take i).sum) ++
              virtualContent backing (stencils.drop (i + 1)) := by
          have hd1 : (virtualContent backing stencils).drop offset =
              ((virtualContent backing stencils).drop
                (((stencils.map Prod.snd).take i).sum)).drop
                (offset - ((stencils.map Prod.snd).take i).sum) := by
            rw [List.drop_drop]
            congr 1
            omega
          rw [hd1, virtualContent_drop backing stencils i hb (by omega)]
          rw [List.drop_eq_getElem_cons hilt, virtualContent_cons]
          rw [List.drop_append_eq_append_drop]
          have hz : offset - ((stencils.map Prod.snd).take i).sum -
              (stencilSlice backing stencils[i]).length = 0 := by
            rw [stencilSlice_length hboundi]
            omega
          rw [hz, List.drop_zero]
        have htmp : (backing.drop bpos).take
            (min size (stencils[i].2 -
              (offset - ((stencils.map Prod.snd).take i).sum))) =
            ((virtualContent backing stencils).drop offset).take
              (min size (stencils[i].2 -
                (offset - ((stencils.map Prod.snd).take i).sum))) := by
          rw [hvc1, List.take_append_eq_append_take]
          have hlen2 : ((stencilSlice backing stencils[i]).drop
              (offset - ((stencils.map Prod.snd).take i).sum)).length =
              stencils[i].2 - (offset - ((stencils.map Prod.snd).take i).sum) := by
            rw [List.length_drop, stencilSlice_length hboundi]
          have hz2 : min size (stencils[i].2 -
              (offset - ((stencils.map Prod.snd).take i).sum)) -
              ((stencilSlice backing stencils[i]).drop
                (offset - ((stencils.map Prod.snd).take i).sum)).length = 0 := by
            rw [hlen2]
            omega
          rw [hz2, List.take_zero, List.append_nil]
          simp only [stencilSlice]
          rw [List.drop_take, List.drop_drop, List.take_take, hbpos']
          congr 1
          omega
        dsimp only
        rw [htmplen]
        rw [ih i (offset + min size (stencils[i].2 -
              (offset - ((stencils.map Prod.snd).take i).sum)))
            (bpos + min size (stencils[i].2 -
              (offset - ((stencils.map Prod.snd).take i).sum)))
            (size - min size (stencils[i].2 -
              (offset - ((stencils.map Prod.snd).take i).sum)))
            (by omega)
            (by
              right
              refine ⟨hilt, by omega, by omega, ?_⟩
              rw [hogetD]
              omega)]
        rw [htmp]
        conv_rhs =>
          rw [show size = min size (stencils[i].2 -
              (offset - ((stencils.map Prod.snd).take i).sum)) +
              (size - min size (stencils[i].2 -
                (offset - ((stencils.map Prod.snd).take i).sum))) from by omega]
        rw [List.take_add]
        congr 1
        rw [List.drop_drop]

/-! ### Behaviour of seek and the assembled C4 statement -/

/-- Projection of `StenciledFile.read` to the returned bytes
(definitional unfolding). -/
theorem read_fst (f : StenciledFile) (size : Int) :
    (f.read size).1 =
      (readLoop f.backing f.offsets f.sizes f.cumsizes
        ((if size = -1 then f.total - f.offset else size.toNat) + f.sizes.length + 1)
        (findStencil f.cumsizes f.offset) f.offset f.bpos
        (if size = -1 then f.total - f.offset else size.toNat)).1 := rfl

/-- A successful `seek` changes only the two position fields. -/
theorem seek_fields (f g : StenciledFile) (off : Int) (w : Whence)
    (h : f.seek off w = .ok g) :
    g.backing = f.backing ∧ g.offsets = f.offsets ∧ g.sizes = f.sizes ∧
      g.cumsizes = f.cumsizes := by
  simp only [StenciledFile.seek] at h
  split_ifs at h <;> (cases h; exact ⟨rfl, rfl, rfl, rfl⟩)

/-- A successful `seek(off, SEEK_SET)` sets the virtual position to
`off.toNat`. -/
theorem seek_set_result (f g : StenciledFile) (off : Int)
    (h : f.seek off .seekSet = .ok g) : g.offset = off.toNat := by
  simp only [StenciledFile.seek] at h
  split_ifs at h <;> (cases h; rfl)

/-- `seek(p, SEEK_SET)` for a natural `p`, written as an if-chain
(definitional modulo the sign test, which a natural position passes). -/
theorem seek_set_eq (f : StenciledFile) (p : Nat) :
    f.seek (p : Int) .seekSet =
      (if f.total ≤ p then .ok { f with offset := p }
       else if p - f.cumsizes.getD (findStencil f.cumsizes p) 0 <
           f.sizes.getD (findStencil f.cumsizes p) 0 then
         .ok { f with
                offset := p,
                bpos := f.offsets.getD (findStencil f.cumsizes p) 0 +
                  (p - f.cumsizes.getD (findStencil f.cumsizes p) 0) }
       else .error .assertionFailed) := by
  simp only [StenciledFile.seek, Int.toNat_natCast]
  rw [if_neg (show ¬ ((p : Int) < 0) by omega)]

/-- The constructor result carries the canonical fields and position
zero. -/
theorem mk_ok (backing : List Nat) (stencils : List (Nat × Nat)) (bpos0 : Nat)
    (f0 : StenciledFile) (hmk : mkStenciledFile backing stencils bpos0 = .ok f0) :
    WFStenciled backing stencils f0 ∧ f0.offset = 0 := by
  unfold mkStenciledFile at hmk
  split_ifs at hmk with hall
  · obtain ⟨h1, h2, h3, h4⟩ := seek_fields _ _ _ _ hmk
    have h5 := seek_set_result _ _ _ hmk
    exact ⟨⟨by simpa using h1, by simpa using h2, by simpa using h3, by simpa using h4⟩,
      by simpa using h5⟩

/-- C4 amended: for a stenciled file built from stencils with positive
lengths that lie inside the backing file, and every `p` up to the total
size, `seek(p)` followed by `read()` yields exactly the suffix of the
stencil concatenation starting at `p`; a `read(n)` returns the next `n`
bytes of that suffix and returns fewer than `n` only when the end of the
virtual stream is reached. -/
theorem stenciledFile_read_correct
    (backing : List Nat) (stencils : List (Nat × Nat)) (bpos0 p : Nat)
    (f0 f1 : StenciledFile)
    (hpos : ∀ st ∈ stencils, 0 < st.2)
    (hb : ∀ st ∈ stencils, st.1 + st.2 ≤ backing.length)
    (hmk : mkStenciledFile backing stencils bpos0 = .ok f0)
    (hp : p ≤ (stencils.map Prod.snd).sum)
    (hseek : f0.seek (p : Int) .seekSet = .ok f1) :
    (f1.read (-1)).1 = (virtualContent backing stencils).drop p ∧
    ∀ n : Nat, (f1.read (n : Int)).1 =
        ((virtualContent backing stencils).drop p).take n ∧
      ((f1.read (n : Int)).1.length < n →
        (f1.read (n : Int)).1.length = (virtualContent backing stencils).length - p) := by
  obtain ⟨⟨hback, hoffs, hsizes, hcums⟩, _⟩ := mk_ok backing stencils bpos0 f0 hmk
  have hpos' : ∀ s ∈ stencils.map Prod.snd, 0 < s := by
    intro s hs
    obtain ⟨st, hst, rfl⟩ := List.mem_map.mp hs
    exact hpos st hst
  have hslen : (stencils.map Prod.snd).length = stencils.length := by simp
  have hcums' : f0.cumsizes = 0 :: sumsFrom 0 (stencils.map Prod.snd) := by
    rw [hcums, buildCumsizes_eq]
  have htot : f0.total = (stencils.map Prod.snd).sum := by
    rw [StenciledFile.total, hcums', List.getLastD_cons, sumsFrom_getLastD]
    omega
  obtain ⟨hback1, hoffs1, hsizes1, hcums1⟩ := seek_fields _ _ _ _ hseek
  have hoff1 : f1.offset = p := by
    have := seek_set_result _ _ _ hseek
    simpa using this
  have hvclen : (virtualContent backing stencils).length =
      (stencils.map Prod.snd).sum := virtualContent_length backing stencils hb
  -- the invariant of the read loop at the stencil found for p
  have hinv : (findStencil (0 :: sumsFrom 0 (stencils.map Prod.snd)) p = stencils.length ∧
        (stencils.map Prod.snd).sum ≤ p) ∨
      (findStencil (0 :: sumsFrom 0 (stencils.map Prod.snd)) p < stencils.length ∧
        ((stencils.map Prod.snd).take
          (findStencil (0 :: sumsFrom 0 (stencils.map Prod.snd)) p)).sum ≤ p ∧
        p ≤ ((stencils.map Prod.snd).take
          (findStencil (0 :: sumsFrom 0 (stencils.map Prod.snd)) p + 1)).sum ∧
        f1.bpos = (stencils.map Prod.fst).getD
            (findStencil (0 :: sumsFrom 0 (stencils.map Prod.snd)) p) 0 +
          (p - ((stencils.map Prod.snd).take
            (findStencil (0 :: sumsFrom 0 (stencils.map Prod.snd)) p)).sum)) := by
    by_cases hplt : p < (stencils.map Prod.snd).sum
    · obtain ⟨hilt, hlo, hhi⟩ := findStencil_lt (stencils.map Prod.snd) p hpos' hplt
      right
      have hglo : (0 :: sumsFrom 0 (stencils.map Prod.snd)).getD
          (findStencil (0 :: sumsFrom 0 (stencils.map Prod.snd)) p) 0 =
          ((stencils.map Prod.snd).take
            (findStencil (0 :: sumsFrom 0 (stencils.map Prod.snd)) p)).sum := by
        have h := sumsFrom_getD (stencils.map Prod.snd) 0
          (findStencil (0 :: sumsFrom 0 (stencils.map Prod.snd)) p) (by omega)
        simpa using h
      have hsucc := take_succ_sum (stencils.map Prod.snd)
        (findStencil (0 :: sumsFrom 0 (stencils.map Prod.snd)) p) (by omega)
      rw [seek_set_eq] at hseek
      rw [if_neg (by omega), if_pos] at hseek
      · cases hseek
        refine ⟨by omega, hlo, by omega, ?_⟩
        rw [hoffs, hcums', hglo]
      · rw [hcums', hsizes, hglo]
        omega
    · left
      have hpe : p = (stencils.map Prod.snd).sum := by omega
      constructor
      · have := findStencil_ge (stencils.map Prod.snd) p (by omega)
        simpa using this
      · omega
  have hread : ∀ sz : Nat,
      (readLoop f1.backing f1.offsets f1.sizes f1.cumsizes
        (sz + f1.sizes.length + 1)
        (findStencil f1.cumsizes f1.offset) f1.offset f1.bpos sz).1 =
      ((virtualContent backing stencils).drop p).take sz := by
    intro sz
    rw [hback1, hback, hoffs1, hoffs, hsizes1, hsizes, hcums1, hcums', hoff1]
    apply readLoop_correct backing stencils hb
    · simp
      omega
    · exact hinv
  constructor
  · rw [read_fst]
    rw [if_pos rfl]
    rw [hoff1]
    have h1 := hread ((stencils.map Prod.snd).sum - p)
    rw [hoff1] at h1
    have htot1 : f1.total = (stencils.map Prod.snd).sum := by
      rw [StenciledFile.total, hcums1, hcums', List.getLastD_cons, sumsFrom_getLastD]
      omega
    rw [htot1]
    rw [h1]
    apply List.take_of_length_le
    rw [List.length_drop, hvclen]
  · intro n
    have hne : ¬ ((n : Int) = -1) := by omega
    have h1 := hread n
    constructor
    · rw [read_fst, if_neg hne, Int.toNat_natCast]
      exact h1
    · intro hshort
      rw [read_fst, if_neg hne, Int.toNat_natCast] at hshort ⊢
      rw [h1] at hshort ⊢
      rw [List.length_take, List.length_drop] at hshort ⊢
      omega

/-- C4 counterexample: the stencils `[(0, 5), (0, 2)]` over the two-byte
backing file `[5, 6]` have nonnegative offsets and positive lengths, and
the virtual position 5 lies inside `[0, total] = [0, 7]`, yet seeking to
5 and reading all remaining bytes returns `[5, 6]` although the
concatenation of the backing-file slices is `[5, 6, 5, 6]`, whose suffix
from 5 is empty: with stencils reaching past the end of the backing
file, `read` also returns fewer bytes than requested without the end of
the virtual stream having been reached. -/
theorem stenciledFile_read_counterexample :
    ((mkStenciledFile [5, 6] [(0, 5), (0, 2)] 0).bind
      (fun f0 => (f0.seek (5 : Int) .seekSet).map (fun f1 => (f1.read (-1)).1)))
      = .ok [5, 6] ∧
    virtualContent [5, 6] [(0, 5), (0, 2)] = [5, 6, 5, 6] ∧
    (virtualContent [5, 6] [(0, 5), (0, 2)]).drop 5 = [] ∧
    ([5, 6] : List Nat) ≠ [] := by
  exact ⟨rfl, rfl, rfl, by decide⟩

/-- Witness for C4 at one in-bounds stencil `(1, 2)` over `[10, 20, 30]`
with `p = 1` and `n = 1`. -/
theorem stenciledFile_read_correct_witness :
    mkStenciledFile [10, 20, 30] [(1, 2)] 0 = .ok c4file0 ∧
    c4file0.seek ((1 : Nat) : Int) .seekSet = .ok c4file1 ∧
    (c4file1.read (-1)).1 = (virtualContent [10, 20, 30] [(1, 2)]).drop 1 ∧
    (c4file1.read ((1 : Nat) : Int)).1 =
      ((virtualContent [10, 20, 30] [(1, 2)]).drop 1).take 1 :=
  ⟨rfl, rfl,
    (stenciledFile_read_correct [10, 20, 30] [(1, 2)] 0 1 c4file0 c4file1
      (by decide) (by decide) rfl (by decide) rfl).1,
    ((stenciledFile_read_correct [10, 20, 30] [(1, 2)] 0 1 c4file0 c4file1
      (by decide) (by decide) rfl (by decide) rfl).2 1).1⟩

/-! ### C10: seeking at or past the end of a stenciled file -/

/-- C10: for every `StenciledFile` and every position `p` at or past the
total virtual size, `seek(p, SEEK_SET)` succeeds and returns `p` without
raising, without firing an assertion, and without moving the backing
file position (only the `offset` field changes); a subsequent `read()`
returns the empty byte string. -/
theorem stenciled_seek_past_end (f : StenciledFile) (p : Nat) (h : f.total ≤ p) :
    f.seek (p : Int) .seekSet = .ok { f with offset := p } ∧
    (({ f with offset := p } : StenciledFile).read (-1)).1 = [] := by
  constructor
  · have h0 : ¬ ((p : Int) < 0) := by omega
    have h1 : ((p : Int)).toNat = p := rfl
    simp [StenciledFile.seek, h0, h1, h]
  · have hsz : ({ f with offset := p } : StenciledFile).total - p = 0 := by
      simp only [StenciledFile.total] at h ⊢
      omega
    simp [StenciledFile.read, hsz, readLoop_size_zero]

/-- Witness for C10 at the concrete file `c10file` and `p = 5`. -/
theorem stenciled_seek_past_end_witness :
    c10file.total ≤ 5 ∧
    (c10file.seek (5 : Nat) .seekSet = .ok { c10file with offset := 5 } ∧
      (({ c10file with offset := 5 } : StenciledFile).read (-1)).1 = []) :=
  ⟨by decide, stenciled_seek_past_end c10file 5 (by decide)⟩

/-! ### C1: the regular-file read path -/

/-- C1 counterexample: the archive `c1stream` holds the one-byte member
`/a` with content `[65]` at data offset 2, followed by padding.  For
`off = 1` (inside `[0, size]`) and `len = 1`, the byte range
`[1, 2)` of the member content truncated at the member end is empty, but
`read` returns the padding byte `[0]`, because the code always reads
`len` bytes of the archive stream from `offset_data + off` without
truncating at the member end. -/
theorem tarMount_read_counterexample :
    TarMount.read c1fs c1stream noSparse 1 ['/', 'a'] 1 1 = some (.ok [0]) ∧
    (((c1stream.drop c1fi.offset).take c1fi.size).drop 1).take 1 = ([] : List Nat) ∧
    ([0] : List Nat) ≠ [] := by
  refine ⟨rfl, by decide, by decide⟩

/-- C1 amended: for a non-sparse regular-file member and every
`off`, `len` with `off + len ≤ size`, `read` returns exactly the bytes
`[off, off+len)` of the member content (the slice of the decompressed
stream at `offset_data`), obtained by seeking the stream to
`offset_data + off` and reading `len` bytes. -/
theorem tarMount_read_regular
    (fs : List Char → Option FileInfo) (stream : List Nat)
    (sparseRead : FileInfo → Nat → Nat → List Nat)
    (fi : FileInfo) (p : List Char) (len off fuel : Nat)
    (hfs : fs p = some fi) (hreg : S_ISREG fi.mode = true)
    (hsp : fi.issparse = false) (hlen : off + len ≤ fi.size) :
    TarMount.read fs stream sparseRead (fuel + 1) p len off =
      some (.ok ((((stream.drop fi.offset).take fi.size).drop off).take len)) := by
  have hcond : ¬ (S_ISREG fi.mode = false ∧ S_ISLNK fi.mode = false ∧
      fi.linkname ≠ []) := by
    simp [hreg]
  simp only [TarMount.read, hfs]
  rw [if_neg hcond]
  simp only [readDirect, hsp, Bool.false_eq_true, if_false, Option.some.injEq,
    Except.ok.injEq]
  rw [List.drop_take, List.take_take, List.drop_drop]
  congr 1
  omega

/-- Witness for C1 at the concrete archive `c1stream`, reading one byte
at offset zero of the member `/a`. -/
theorem tarMount_read_regular_witness :
    c1fs ['/', 'a'] = some c1fi ∧ S_ISREG c1fi.mode = true ∧
    c1fi.issparse = false ∧ 0 + 1 ≤ c1fi.size ∧
    TarMount.read c1fs c1stream noSparse 1 ['/', 'a'] 1 0 =
      some (.ok ((((c1stream.drop c1fi.offset).take c1fi.size).drop 0).take 1)) :=
  ⟨rfl, by decide, rfl, by decide,
    tarMount_read_regular c1fs c1stream noSparse c1fi ['/', 'a'] 1 0 0 rfl
      (by decide) rfl (by decide)⟩

/-! ### C2: hard-link dereferencing in read -/

/-- The mutual hard links `/a -> b` and `/b -> a` make the Python `read`
recurse forever: no recursion depth suffices. -/
theorem c2_mutual_links_diverge (stream : List Nat)
    (sparseRead : FileInfo → Nat → Nat → List Nat) (length offset : Nat) :
    ∀ n, TarMount.read c2fsAB stream sparseRead n ['/', 'a'] length offset = none ∧
      TarMount.read c2fsAB stream sparseRead n ['/', 'b'] length offset = none := by
  intro n
  induction n with
  | zero => exact ⟨rfl, rfl⟩
  | succ n ih =>
    constructor
    · have h1 : c2fsAB ['/', 'a'] = some c2fiA := by decide
      simp only [TarMount.read, h1]
      rw [if_pos (by decide), if_pos (by decide)]
      exact ih.2
    · have h1 : c2fsAB ['/', 'b'] = some c2fiB := by decide
      simp only [TarMount.read, h1]
      rw [if_pos (by decide), if_pos (by decide)]
      exact ih.1

/-- C2 counterexample: the hard-link member `/h` links to itself.  The
dereference lands back on the same path, and `read` does not return an
error: it falls through to a direct read of the member and returns the
stream bytes `[1, 2]`. -/
theorem tarMount_link_counterexample :
    '/' :: lstripSlash c2fi.linkname = ['/', 'h'] ∧
    c2fs ['/', 'h'] = some c2fi ∧
    S_ISREG c2fi.mode = false ∧ S_ISLNK c2fi.mode = false ∧ c2fi.linkname ≠ [] ∧
    TarMount.read c2fs [1, 2, 3] noSparse 1 ['/', 'h'] 2 0 = some (.ok [1, 2]) := by
  exact ⟨by decide, by decide, by decide, by decide, by decide, rfl⟩

/-- C2 amended: for a member that is neither regular nor symlink and has
a non-empty linkname, `read` re-resolves `'/' + linkname.lstrip('/')`;
when that target equals the current path it falls through to a direct
read of the member itself (no error), and otherwise it issues an
unconditional recursive `read` on the target, so link chains are
followed hop by hop and a cyclic pair of hard links makes the recursion
diverge (no call depth suffices, as the third conjunct shows on the
mutual links `/a <-> /b`). -/
theorem tarMount_link_deref
    (fs : List Char → Option FileInfo) (stream : List Nat)
    (sparseRead : FileInfo → Nat → Nat → List Nat) (fuel : Nat)
    (path : List Char) (fi : FileInfo) (length offset : Nat)
    (hfs : fs path = some fi)
    (hreg : S_ISREG fi.mode = false) (hlnk : S_ISLNK fi.mode = false)
    (hln : fi.linkname ≠ []) :
    (('/' :: lstripSlash fi.linkname = path →
        TarMount.read fs stream sparseRead (fuel + 1) path length offset =
          some (readDirect stream sparseRead fi length offset)) ∧
     ('/' :: lstripSlash fi.linkname ≠ path →
        TarMount.read fs stream sparseRead (fuel + 1) path length offset =
          TarMount.read fs stream sparseRead fuel
            ('/' :: lstripSlash fi.linkname) length offset) ∧
     (∀ n, TarMount.read c2fsAB stream sparseRead n ['/', 'a'] length offset =
        none)) := by
  refine ⟨?_, ?_, fun n => (c2_mutual_links_diverge stream sparseRead length offset n).1⟩
  · intro heq
    simp only [TarMount.read, hfs]
    rw [if_pos ⟨hreg, hlnk, hln⟩, if_neg (by simp [heq])]
  · intro hne
    simp only [TarMount.read, hfs]
    rw [if_pos ⟨hreg, hlnk, hln⟩, if_pos hne]

/-! ### C3: symlink member scenario -/

set_option maxRecDepth 100000 in
/-- C3 counterexample: in the archive `c3stream` (regular member
`a.txt` with content `"0123456789"`, symlink member `link` with link
target `a.txt`), `readlink` does return `"a.txt"`, but
`read("/link", 3, 0)` does not return `"012"`: the dereference branch of
`read` excludes symlinks, so the code reads three bytes of the archive
stream at the data offset of the symlink member itself, which are the
zero bytes of the end-of-archive blocks. -/
theorem tarMount_symlink_counterexample :
    TarMount.readlink c3fs c3pathLink = .ok ['a', '.', 't', 'x', 't'] ∧
    TarMount.read c3fs c3stream noSparse 1 c3pathLink 3 0 = some (.ok [0, 0, 0]) ∧
    ([0, 0, 0] : List Nat) ≠ [48, 49, 50] := by
  exact ⟨rfl, rfl, by decide⟩

set_option maxRecDepth 100000 in
/-- C3 amended: `readlink("/link")` returns `"a.txt"`, but `read` does
not dereference symlink members (the hard-link branch requires the mode
to be neither regular nor symlink): `read("/link", 3, 0)` returns the
three stream bytes at the data offset 1536 of the symlink member itself
(zeros here), while the target content `"012"` is only returned by
`read("/a.txt", 3, 0)`; following the link is left to the caller of
`readlink`. -/
theorem tarMount_symlink_read :
    TarMount.readlink c3fs c3pathLink = .ok ['a', '.', 't', 'x', 't'] ∧
    TarMount.read c3fs c3stream noSparse 1 c3pathLink 3 0 =
      some (.ok ((c3stream.drop (c3fiLink.offset + 0)).take 3)) ∧
    (c3stream.drop (c3fiLink.offset + 0)).take 3 = [0, 0, 0] ∧
    TarMount.read c3fs c3stream noSparse 1 c3pathTxt 3 0 = some (.ok [48, 49, 50]) := by
  exact ⟨rfl, rfl, by decide, rfl⟩

/-- Witness for C2 at the self-linking member `/h`. -/
theorem tarMount_link_deref_witness :
    c2fs ['/', 'h'] = some c2fi ∧
    S_ISREG c2fi.mode = false ∧ S_ISLNK c2fi.mode = false ∧ c2fi.linkname ≠ [] ∧
    TarMount.read c2fs [1, 2, 3] noSparse 1 ['/', 'h'] 2 0 =
      some (readDirect [1, 2, 3] noSparse c2fi 2 0) :=
  ⟨by decide, by decide, by decide, by decide,
    (tarMount_link_deref c2fs [1, 2, 3] noSparse 0 ['/', 'h'] c2fi 2 0
      (by decide) (by decide) (by decide) (by decide)).1 (by decide)⟩

/-! ### Path splitting and joining -/

theorem splitSlash_ne_nil (s : List Char) : splitSlash s ≠ [] := by
  induction s with
  | nil => simp [splitSlash]
  | cons c rest ih =>
    by_cases hc : c = '/'
    · simp [splitSlash, hc]
    · simp only [splitSlash, hc, if_false]
      cases h : splitSlash rest with
      | nil => exact absurd h ih
      | cons q qs => simp

theorem splitSlash_cons_slash (c : Char) (rest : List Char) (hc : c = '/') :
    splitSlash (c :: rest) = [] :: splitSlash rest := by
  simp [splitSlash, hc]

theorem splitSlash_cons_other (c : Char) (rest : List Char) (hc : ¬ c = '/')
    (q : List Char) (qs : List (List Char)) (h : splitSlash rest = q :: qs) :
    splitSlash (c :: rest) = (c :: q) :: qs := by
  simp [splitSlash, hc, h]

theorem splitSlash_no_slash (s : List Char) : ∀ x ∈ splitSlash s, '/' ∉ x := by
  induction s with
  | nil =>
    intro x hx
    simp only [splitSlash, List.mem_singleton] at hx
    simp [hx]
  | cons c rest ih =>
    intro x hx
    by_cases hc : c = '/'
    · rw [splitSlash_cons_slash c rest hc] at hx
      rcases List.mem_cons.mp hx with rfl | hx2
      · simp
      · exact ih x hx2
    · cases h : splitSlash rest with
      | nil => exact absurd h (splitSlash_ne_nil rest)
      | cons q qs =>
        rw [splitSlash_cons_other c rest hc q qs h] at hx
        rcases List.mem_cons.mp hx with rfl | hx2
        · intro hmem
          rcases List.mem_cons.mp hmem with h1 | h1
          · exact hc h1.symm
          · exact ih q (by rw [h]; exact List.mem_cons_self _ _) h1
        · exact ih x (by rw [h]; exact List.mem_cons_of_mem _ hx2)

theorem joinSlash_cons (p : List Char) (ps : List (List Char)) (h : ps ≠ []) :
    joinSlash (p :: ps) = p ++ '/' :: joinSlash ps := by
  cases ps with
  | nil => exact absurd rfl h
  | cons q qs => rfl

/-- Joining undoes splitting. -/
theorem joinSlash_splitSlash (s : List Char) : joinSlash (splitSlash s) = s := by
  induction s with
  | nil => rfl
  | cons c rest ih =>
    by_cases hc : c = '/'
    · rw [splitSlash_cons_slash c rest hc,
        joinSlash_cons [] (splitSlash rest) (splitSlash_ne_nil rest), ih, hc]
      rfl
    · cases h : splitSlash rest with
      | nil => exact absurd h (splitSlash_ne_nil rest)
      | cons q qs =>
        rw [splitSlash_cons_other c rest hc q qs h]
        rw [h] at ih
        cases qs with
        | nil =>
          have : q = rest := by simpa [joinSlash] using ih
          simp [joinSlash, this]
        | cons q2 qs2 =>
          rw [joinSlash_cons (c :: q) (q2 :: qs2) (by simp),
            List.cons_append]
          rw [joinSlash_cons q (q2 :: qs2) (by simp)] at ih
          rw [ih]

/-- Splitting a slash-free string gives a single component. -/
theorem splitSlash_of_no_slash (x : List Char) (hx : '/' ∉ x) :
    splitSlash x = [x] := by
  induction x with
  | nil => rfl
  | cons c r ih =>
    have hc : ¬ c = '/' := by
      intro h
      exact hx (by simp [h])
    have hr : '/' ∉ r := fun h => hx (List.mem_cons_of_mem _ h)
    rw [splitSlash_cons_other c r hc r [] (ih hr)]

/-- Splitting after a slash-free first component. -/
theorem splitSlash_append_slash (x t : List Char) (hx : '/' ∉ x) :
    splitSlash (x ++ '/' :: t) = x :: splitSlash t := by
  induction x with
  | nil => exact splitSlash_cons_slash '/' t rfl
  | cons c r ih =>
    have hc : ¬ c = '/' := by
      intro h
      exact hx (by simp [h])
    have hr : '/' ∉ r := fun h => hx (List.mem_cons_of_mem _ h)
    cases h2 : splitSlash (r ++ '/' :: t) with
    | nil => exact absurd h2 (splitSlash_ne_nil _)
    | cons q qs =>
      rw [List.cons_append, splitSlash_cons_other c (r ++ '/' :: t) hc r
        (splitSlash t) (ih hr)]

/-- Splitting undoes joining for a nonempty list of slash-free
components. -/
theorem splitSlash_joinSlash (l : List (List Char)) (hne : l ≠ [])
    (hfree : ∀ x ∈ l, '/' ∉ x) : splitSlash (joinSlash l) = l := by
  induction l with
  | nil => exact absurd rfl hne
  | cons x l' ih =>
    cases l' with
    | nil =>
      have : joinSlash [x] = x := rfl
      rw [this, splitSlash_of_no_slash x (hfree x (by simp))]
    | cons y l2 =>
      rw [joinSlash_cons x (y :: l2) (by simp)]
      rw [splitSlash_append_slash x (joinSlash (y :: l2)) (hfree x (by simp))]
      rw [ih (by simp) (fun z hz => hfree z (List.mem_cons_of_mem _ hz))]

theorem joinSlash_append_single (A : List (List Char)) (x : List Char)
    (hne : A ≠ []) :
    joinSlash (A ++ [x]) = joinSlash A ++ '/' :: x := by
  induction A with
  | nil => exact absurd rfl hne
  | cons a A' ih =>
    cases A' with
    | nil => rfl
    | cons b A2 =>
      rw [List.cons_append, joinSlash_cons a ((b :: A2) ++ [x]) (by simp),
        joinSlash_cons a (b :: A2) (by simp), ih (by simp)]
      simp

/-! ### The scan fold and the synthesized directory rows -/

theorem mem_foldl_insertOrIgnorePair (l : List (List Char × List Char)) :
    ∀ (acc : List (List Char × List Char)) (x : List Char × List Char),
      x ∈ l.foldl insertOrIgnorePair acc ↔ x ∈ acc ∨ x ∈ l := by
  induction l with
  | nil => intro acc x; simp
  | cons y l' ih =>
    intro acc x
    rw [List.foldl_cons, ih]
    unfold insertOrIgnorePair
    split_ifs with hy
    · constructor
      · rintro (h | h)
        · exact Or.inl h
        · exact Or.inr (List.mem_cons_of_mem _ h)
      · rintro (h | h)
        · exact Or.inl h
        · rcases List.mem_cons.mp h with rfl | h2
          · exact Or.inl hy
          · exact Or.inr h2
    · constructor
      · rintro (h | h)
        · rcases List.mem_append.mp h with h2 | h2
          · exact Or.inl h2
          · simp only [List.mem_singleton] at h2
            exact Or.inr (by simp [h2])
        · exact Or.inr (List.mem_cons_of_mem _ h)
      · rintro (h | h)
        · exact Or.inl (List.mem_append_left _ h)
        · rcases List.mem_cons.mp h with rfl | h2
          · exact Or.inl (List.mem_append_right _ (by simp))
          · exact Or.inr h2

theorem nodup_foldl_insertOrIgnorePair (l : List (List Char × List Char)) :
    ∀ (acc : List (List Char × List Char)), acc.Nodup →
      (l.foldl insertOrIgnorePair acc).Nodup := by
  induction l with
  | nil => intro acc h; exact h
  | cons y l' ih =>
    intro acc h
    rw [List.foldl_cons]
    apply ih
    unfold insertOrIgnorePair
    split_ifs with hy
    · exact h
    · simpa [List.nodup_append] using ⟨h, hy⟩

/-- Unfolding of `tryAddParentFolders` with its local bindings expanded
(definitionally equal). -/
theorem tryAddParentFolders_eq (st : ScanState) (path : List Char) :
    tryAddParentFolders st path =
      (if ((ancestorPairsOf path).filter
          (fun p => decide (p ∉ st.parentFolderCache))).isEmpty then
        st
      else
        { st with
          parentFolderCache :=
            (if 16 < (st.parentFolderCache ++ (ancestorPairsOf path).filter
                (fun p => decide (p ∉ st.parentFolderCache))).length then
              (st.parentFolderCache ++ (ancestorPairsOf path).filter
                (fun p => decide (p ∉ st.parentFolderCache))).drop
                ((st.parentFolderCache ++ (ancestorPairsOf path).filter
                  (fun p => decide (p ∉ st.parentFolderCache))).length - 8)
            else
              st.parentFolderCache ++ (ancestorPairsOf path).filter
                (fun p => decide (p ∉ st.parentFolderCache))),
          parentfolders :=
            ((ancestorPairsOf path).filter
              (fun p => decide (p ∉ st.parentFolderCache))).foldl
              insertOrIgnorePair st.parentfolders }) := rfl

/-- The `parentfolders` table after one `_tryAddParentFolders` call:
provided every cached pair is already recorded, the recorded set grows
by exactly the ancestor pairs of the path. -/
theorem tryAdd_parentfolders_mem (st : ScanState) (path : List Char)
    (hA : ∀ x ∈ st.parentFolderCache, x ∈ st.parentfolders) :
    ∀ x, x ∈ (tryAddParentFolders st path).parentfolders ↔
      x ∈ st.parentfolders ∨ x ∈ ancestorPairsOf path := by
  intro x
  rw [tryAddParentFolders_eq]
  by_cases hemp : ((ancestorPairsOf path).filter
      (fun p => decide (p ∉ st.parentFolderCache))).isEmpty = true
  · rw [if_pos hemp]
    have hnil := List.isEmpty_iff.mp hemp
    constructor
    · exact fun h => Or.inl h
    · rintro (h | h)
      · exact h
      · by_cases hxc : x ∈ st.parentFolderCache
        · exact hA x hxc
        · exfalso
          have hmem : x ∈ (ancestorPairsOf path).filter
              (fun p => decide (p ∉ st.parentFolderCache)) :=
            List.mem_filter.mpr ⟨h, by simp only [decide_eq_true_eq]; exact hxc⟩
          rw [hnil] at hmem
          simp at hmem
  · rw [if_neg hemp]
    dsimp only
    rw [mem_foldl_insertOrIgnorePair]
    constructor
    · rintro (h | h)
      · exact Or.inl h
      · exact Or.inr (List.mem_filter.mp h).1
    · rintro (h | h)
      · exact Or.inl h
      · by_cases hxc : x ∈ st.parentFolderCache
        · exact Or.inl (hA x hxc)
        · exact Or.inr (List.mem_filter.mpr
            ⟨h, by simp only [decide_eq_true_eq]; exact hxc⟩)

/-- The cache stays inside the recorded set across one call. -/
theorem tryAdd_cache_subset (st : ScanState) (path : List Char)
    (hA : ∀ x ∈ st.parentFolderCache, x ∈ st.parentfolders) :
    ∀ x ∈ (tryAddParentFolders st path).parentFolderCache,
      x ∈ (tryAddParentFolders st path).parentfolders := by
  intro x hx
  rw [tryAdd_parentfolders_mem st path hA]
  rw [tryAddParentFolders_eq] at hx
  by_cases hemp : ((ancestorPairsOf path).filter
      (fun p => decide (p ∉ st.parentFolderCache))).isEmpty = true
  · rw [if_pos hemp] at hx
    exact Or.inl (hA x hx)
  · rw [if_neg hemp] at hx
    dsimp only at hx
    have hx2 : x ∈ st.parentFolderCache ++ (ancestorPairsOf path).filter
        (fun p => decide (p ∉ st.parentFolderCache)) := by
      by_cases hb : 16 < (st.parentFolderCache ++ (ancestorPairsOf path).filter
          (fun p => decide (p ∉ st.parentFolderCache))).length
      · rw [if_pos hb] at hx
        exact List.drop_subset _ _ hx
      · rw [if_neg hb] at hx
        exact hx
    rcases List.mem_append.mp hx2 with h | h
    · exact Or.inl (hA x h)
    · exact Or.inr (List.mem_filter.mp h).1

/-- Nodup of the recorded set is preserved. -/
theorem tryAdd_parentfolders_nodup (st : ScanState) (path : List Char)
    (h : st.parentfolders.Nodup) :
    (tryAddParentFolders st path).parentfolders.Nodup := by
  rw [tryAddParentFolders_eq]
  by_cases hemp : ((ancestorPairsOf path).filter
      (fun p => decide (p ∉ st.parentFolderCache))).isEmpty = true
  · rw [if_pos hemp]
    exact h
  · rw [if_neg hemp]
    exact nodup_foldl_insertOrIgnorePair _ _ h

/-- Processing one member only touches `files` through an
`INSERT OR REPLACE` of its row. -/
theorem setFileInfo_files (st : ScanState) (m : Member) :
    (setFileInfo st m).files = insertOrReplaceRow st.files (memberRowOf m) := by
  unfold setFileInfo
  rw [tryAddParentFolders_eq]
  by_cases hemp : ((ancestorPairsOf (memberRowOf m).path).filter
      (fun p => decide (p ∉
        ({ st with files := insertOrReplaceRow st.files (memberRowOf m) }
          : ScanState).parentFolderCache))).isEmpty = true
  · rw [if_pos hemp]
  · rw [if_neg hemp]

theorem mem_insertOrReplaceRow (files : List FileRow) (row r : FileRow) :
    r ∈ insertOrReplaceRow files row ↔
      (r ∈ files ∧ rowKey r ≠ rowKey row) ∨ r = row := by
  unfold insertOrReplaceRow
  rw [List.mem_append, List.mem_filter]
  simp [decide_eq_true_eq]

theorem setFileInfo_pf (st : ScanState) (m : Member)
    (hA : ∀ x ∈ st.parentFolderCache, x ∈ st.parentfolders) :
    ∀ x, x ∈ (setFileInfo st m).parentfolders ↔
      x ∈ st.parentfolders ∨ x ∈ ancestorPairsOf (dirOf m.fullPath) :=
  tryAdd_parentfolders_mem _ _ hA

theorem setFileInfo_cache (st : ScanState) (m : Member)
    (hA : ∀ x ∈ st.parentFolderCache, x ∈ st.parentfolders) :
    ∀ x ∈ (setFileInfo st m).parentFolderCache,
      x ∈ (setFileInfo st m).parentfolders :=
  tryAdd_cache_subset _ _ hA

theorem setFileInfo_nodup (st : ScanState) (m : Member)
    (h : st.parentfolders.Nodup) : (setFileInfo st m).parentfolders.Nodup :=
  tryAdd_parentfolders_nodup _ _ h

/-- The five invariants of the scan fold, relative to the starting
state. -/
theorem scan_invariants : ∀ (ms : List Member) (st : ScanState),
    (∀ x ∈ st.parentFolderCache, x ∈ st.parentfolders) →
    st.parentfolders.Nodup →
    (∀ x ∈ (ms.foldl setFileInfo st).parentFolderCache,
        x ∈ (ms.foldl setFileInfo st).parentfolders) ∧
    (ms.foldl setFileInfo st).parentfolders.Nodup ∧
    (∀ x, x ∈ (ms.foldl setFileInfo st).parentfolders ↔
      x ∈ st.parentfolders ∨ ∃ m ∈ ms, x ∈ ancestorPairsOf (dirOf m.fullPath)) ∧
    (∀ r ∈ (ms.foldl setFileInfo st).files,
      r ∈ st.files ∨ ∃ m ∈ ms, r = memberRowOf m) ∧
    (∀ k, (∃ r ∈ st.files, rowKey r = k) →
      ∃ r ∈ (ms.foldl setFileInfo st).files, rowKey r = k) ∧
    (∀ m ∈ ms, ∃ r ∈ (ms.foldl setFileInfo st).files, rowKey r = keyOf m) := by
  intro ms
  induction ms with
  | nil =>
    intro st hA hE
    refine ⟨hA, hE, by simp, by simp, ?_, by simp⟩
    intro k hk
    simpa using hk
  | cons m ms' ih =>
    intro st hA hE
    rw [List.foldl_cons]
    obtain ⟨ihA, ihE, ihPF, ihF, ihK, ihM⟩ :=
      ih (setFileInfo st m) (setFileInfo_cache st m hA) (setFileInfo_nodup st m hE)
    refine ⟨ihA, ihE, ?_, ?_, ?_, ?_⟩
    · intro x
      rw [ihPF x, setFileInfo_pf st m hA x]
      constructor
      · rintro ((h | h) | ⟨m2, hm2, h⟩)
        · exact Or.inl h
        · exact Or.inr ⟨m, by simp, h⟩
        · exact Or.inr ⟨m2, List.mem_cons_of_mem _ hm2, h⟩
      · rintro (h | ⟨m2, hm2, h⟩)
        · exact Or.inl (Or.inl h)
        · rcases List.mem_cons.mp hm2 with rfl | hm3
          · exact Or.inl (Or.inr h)
          · exact Or.inr ⟨m2, hm3, h⟩
    · intro r hr
      rcases ihF r hr with h | ⟨m2, hm2, h⟩
      · rw [setFileInfo_files st m, mem_insertOrReplaceRow] at h
        rcases h with ⟨h1, _⟩ | h1
        · exact Or.inl h1
        · exact Or.inr ⟨m, by simp, h1⟩
      · exact Or.inr ⟨m2, List.mem_cons_of_mem _ hm2, h⟩
    · intro k hk
      apply ihK
      obtain ⟨r, hr, hkey⟩ := hk
      by_cases hkm : k = keyOf m
      · refine ⟨memberRowOf m, ?_, hkm.symm⟩
        rw [setFileInfo_files st m, mem_insertOrReplaceRow]
        exact Or.inr rfl
      · refine ⟨r, ?_, hkey⟩
        rw [setFileInfo_files st m, mem_insertOrReplaceRow]
        exact Or.inl ⟨hr, by rw [hkey]; exact fun h => hkm h⟩
    · intro m2 hm2
      rcases List.mem_cons.mp hm2 with rfl | hm3
      · apply ihK
        refine ⟨memberRowOf m2, ?_, rfl⟩
        rw [setFileInfo_files st m2, mem_insertOrReplaceRow]
        exact Or.inr rfl
      · exact ihM m2 hm3

/-- `hasKey` decides key presence. -/
theorem hasKey_iff (files : List FileRow) (k : List Char × List Char) :
    hasKey files k = true ↔ ∃ r ∈ files, rowKey r = k := by
  unfold hasKey
  rw [List.any_eq_true]
  simp [decide_eq_true_eq]

/-- The synthesizing fold: old rows persist, new rows are exactly
synthesized parent-folder rows, and every recorded pair is either
already keyed in the starting table or ends up as its synthesized row. -/
theorem addSynth_fold : ∀ (prs : List (List Char × List Char))
    (fs : List FileRow), prs.Nodup →
    (∀ r ∈ fs, r ∈ prs.foldl addSynthRow fs) ∧
    (∀ r ∈ prs.foldl addSynthRow fs,
      r ∈ fs ∨ ∃ pr ∈ prs, r = synthRow pr.1 pr.2) ∧
    (∀ pr ∈ prs, (∃ r ∈ fs, rowKey r = pr) ∨
      synthRow pr.1 pr.2 ∈ prs.foldl addSynthRow fs) := by
  intro prs
  induction prs with
  | nil => intro fs _; exact ⟨fun r hr => hr, fun r hr => Or.inl hr, by simp⟩
  | cons pr rest ih =>
    intro fs hnd
    rw [List.foldl_cons]
    have hnd2 : rest.Nodup := hnd.of_cons
    have hprn : pr ∉ rest := by
      rw [List.nodup_cons] at hnd
      exact hnd.1
    obtain ⟨ih1, ih2, ih3⟩ := ih (addSynthRow fs pr) hnd2
    have hstep : ∀ r ∈ fs, r ∈ addSynthRow fs pr := by
      intro r hr
      unfold addSynthRow
      split_ifs
      · exact hr
      · exact List.mem_append_left _ hr
    refine ⟨fun r hr => ih1 r (hstep r hr), ?_, ?_⟩
    · intro r hr
      rcases ih2 r hr with h | ⟨pr2, hpr2, h⟩
      · unfold addSynthRow at h
        split_ifs at h
        · exact Or.inl h
        · rcases List.mem_append.mp h with h2 | h2
          · exact Or.inl h2
          · simp only [List.mem_singleton] at h2
            exact Or.inr ⟨pr, by simp, h2⟩
      · exact Or.inr ⟨pr2, List.mem_cons_of_mem _ hpr2, h⟩
    · intro pr2 hpr2
      rcases List.mem_cons.mp hpr2 with rfl | hpr3
      · by_cases hk : hasKey fs pr2 = true
        · exact Or.inl ((hasKey_iff fs pr2).mp hk)
        · right
          apply ih1
          unfold addSynthRow
          rw [if_neg hk]
          exact List.mem_append_right _ (by simp)
      · rcases ih3 pr2 hpr3 with ⟨r, hr, hkey⟩ | h
        · unfold addSynthRow at hr
          split_ifs at hr
          · exact Or.inl ⟨r, hr, hkey⟩
          · rcases List.mem_append.mp hr with h2 | h2
            · exact Or.inl ⟨r, h2, hkey⟩
            · exfalso
              simp only [List.mem_singleton] at h2
              apply hprn
              have : rowKey (synthRow pr.1 pr.2) = pr := rfl
              rw [h2, this] at hkey
              rw [hkey]
              exact hpr3
        · exact Or.inr h

/-! ### Structure of the ancestor pairs -/

theorem mem_ancestorPairsOf (q : List Char) (pr : List Char × List Char) :
    pr ∈ ancestorPairsOf q ↔
      ∃ i, 1 ≤ i ∧ i < (splitSlash q).length ∧
        pr = (joinSlash ((splitSlash q).take i), (splitSlash q).getD i []) := by
  have hlen : 0 < (splitSlash q).length :=
    List.length_pos.mpr (splitSlash_ne_nil q)
  unfold ancestorPairsOf
  rw [List.mem_map]
  constructor
  · rintro ⟨i, hi, rfl⟩
    rw [List.mem_range'_1] at hi
    exact ⟨i, hi.1, by omega, rfl⟩
  · rintro ⟨i, h1, h2, rfl⟩
    exact ⟨i, by rw [List.mem_range'_1]; omega, rfl⟩

theorem take_succ_getD {α : Type} (l : List α) (i : Nat) (h : i < l.length) (d : α) :
    l.take (i + 1) = l.take i ++ [l.getD i d] := by
  rw [List.take_succ]
  congr 1
  rw [List.getElem?_eq_getElem h, List.getD_eq_getElem?_getD,
    List.getElem?_eq_getElem h]
  rfl

/-- Joining the pair of ancestor number `i` recovers the prefix of
length `i + 1`. -/
theorem ancestorPair_join (Q : List (List Char)) (i : Nat)
    (h1 : 1 ≤ i) (h2 : i < Q.length) :
    joinSlash (Q.take i) ++ '/' :: Q.getD i [] = joinSlash (Q.take (i + 1)) := by
  rw [take_succ_getD Q i h2 []]
  rw [joinSlash_append_single _ _ (by
    apply List.ne_nil_of_length_pos
    rw [List.length_take]
    omega)]

/-- The directory part of a well-formed member path: either the root, or
a path whose split is the dropLast of the split of the full path, with
at least two components. -/
theorem wf_dir_structure (s : List Char) (hwf : WFPath s) :
    dirOf s = [] ∨
      (splitSlash (dirOf s) = (splitSlash s).dropLast ∧
        2 ≤ (splitSlash s).dropLast.length) := by
  obtain ⟨comps, hsplit, hne, hfree⟩ := hwf
  cases comps with
  | nil => exact absurd rfl hne
  | cons c cs =>
    cases cs with
    | nil =>
      left
      unfold dirOf rsplit1
      rw [hsplit]
      rfl
    | cons c2 cs2 =>
      right
      constructor
      · unfold dirOf rsplit1
        apply splitSlash_joinSlash
        · rw [hsplit]
          simp [List.dropLast]
        · intro x hx
          exact splitSlash_no_slash s x (List.dropLast_subset _ hx)
      · rw [hsplit]
        simp [List.dropLast]

/-- The split of a well-formed member path starts with the empty
component. -/
theorem wf_dropLast_head (s : List Char) (hwf : WFPath s)
    (h2 : 2 ≤ (splitSlash s).dropLast.length) :
    ((splitSlash s).dropLast.take 1) = [[]] := by
  obtain ⟨comps, hsplit, hne, _⟩ := hwf
  cases comps with
  | nil => exact absurd rfl hne
  | cons c cs =>
    cases cs with
    | nil =>
      rw [hsplit] at h2
      simp [List.dropLast] at h2
    | cons c2 cs2 =>
      rw [hsplit]
      rfl

/-- Joining the directory split recovers the directory string. -/
theorem joinSlash_dir (s : List Char) :
    joinSlash ((splitSlash s).dropLast) = dirOf s := rfl

/-! ### C5: index validation -/

/-- C5 counterexample: the index `c5db` has a `files` table, no
`filestmp` or `parentfolders` table and no metadata, so none of the
rejection conditions listed by the claim holds for it, yet `loadIndex`
rejects it: it carries a `bzip2blocks` table without a `versions` table
(the legacy bzip2-decoder check precedes all others). -/
theorem loadIndex_counterexample :
    loadIndexRejects c5db 0 0 = true ∧ claimedLoadRejects c5db 0 0 = false := by
  decide

/-- C5 amended: `loadIndex` rejects (raises, closing the SQL connection
so the index does not count as loaded) exactly when a `bzip2blocks`
table is present without a `versions` table, or the `files` table is
absent, or a `filestmp` or `parentfolders` table is present, or the
stored tarstats record disagrees with the current stat of the archive in
`st_size` or `st_mtime`; missing version information or missing sparse
columns alone never reject (the version condition does not appear in the
right-hand side below). -/
theorem loadIndex_reject_iff (db : IndexDb) (stSize stMtime : Int) :
    loadIndexRejects db stSize stMtime = true ↔
      ((TableName.bzip2blocks ∈ db.tables ∧ TableName.versions ∉ db.tables) ∨
       TableName.files ∉ db.tables ∨
       TableName.filestmp ∈ db.tables ∨
       TableName.parentfolders ∈ db.tables ∨
       (TableName.metadata ∈ db.tables ∧
         ((db.stSizeStored ≠ none ∧ db.stSizeStored ≠ some stSize) ∨
          (db.stMtimeStored ≠ none ∧ db.stMtimeStored ≠ some stMtime)))) := by
  rcases db with ⟨tables, iv, ss, sm⟩
  cases ss <;> cases sm <;>
    simp [loadIndexRejects, loadIndexChecks, checkStoredMtime] <;>
    split_ifs <;> simp_all <;> tauto

/-! ### C6: the parent-chain invariant of the files table -/

/-- C6 counterexample: the archive contains a regular file `a` and a
member `a/b` below it.  After indexing, the row for `a/b` has path `/a`,
but the only row named by `/a` is the regular file `a` (type flag `0`,
not directory), so the parent chain does not resolve to a directory row;
moreover the ancestor directory `a`, absent from the archive as a
directory, is not synthesized (the regular-file row occupies the key).
-/
theorem createIndexScan_counterexample :
    createIndexScan [c6memberA, c6memberAB] =
      [memberRowOf c6memberA, memberRowOf c6memberAB] ∧
    (memberRowOf c6memberA).ftype ≠ DIRTYPE ∧
    (createIndexScan [c6memberA, c6memberAB]).all
      (fun r => decide (r.path = []) ||
        (createIndexScan [c6memberA, c6memberAB]).any
          (fun r2 => decide (r2.path ++ '/' :: r2.name = r.path) &&
            decide (r2.ftype = DIRTYPE))) = false ∧
    synthRow [] ['a'] ∉ createIndexScan [c6memberA, c6memberAB] := by
  refine ⟨by decide, by decide, by decide, by decide⟩

/-- C6 amended: after indexing members with well-formed full paths,
every row of the files table has a path that is either empty (the root)
or equal to `path ++ "/" ++ name` of some row of the table (normally a
directory row; when the archive itself contains a non-directory member
at that key, that member row stands in instead).  Every strict ancestor
of a member directory is either the key of some archive member or
appears as the synthesized directory row (mode `0555|DIR`, size 1,
mtime 0, type DIR, uid/gid 0, offsets 0), and synthesized rows never
replace a row recorded from an archive member at the same key. -/
theorem createIndexScan_invariant (members : List Member)
    (hwf : ∀ m ∈ members, WFPath m.fullPath) :
    (∀ r ∈ createIndexScan members, r.path = [] ∨
      ∃ r2 ∈ createIndexScan members, r2.path ++ '/' :: r2.name = r.path) ∧
    (∀ m ∈ members, ∀ pr ∈ ancestorPairsOf (dirOf m.fullPath),
      (∃ m2 ∈ members, keyOf m2 = pr) ∨
        synthRow pr.1 pr.2 ∈ createIndexScan members) ∧
    (∀ m ∈ members, ∃ r ∈ createIndexScan members,
      rowKey r = keyOf m ∧ ∃ m2 ∈ members, r = memberRowOf m2) := by
  obtain ⟨hA, hE, hPF, hF, hK, hM⟩ := scan_invariants members emptyScanState
    (by simp [emptyScanState]) (by simp [emptyScanState])
  obtain ⟨g1, g2, g3⟩ := addSynth_fold
    (members.foldl setFileInfo emptyScanState).parentfolders
    (members.foldl setFileInfo emptyScanState).files hE
  have hPF2 : ∀ x, x ∈ (members.foldl setFileInfo emptyScanState).parentfolders ↔
      ∃ m ∈ members, x ∈ ancestorPairsOf (dirOf m.fullPath) := by
    intro x
    rw [hPF x]
    simp [emptyScanState]
  have hF2 : ∀ r ∈ (members.foldl setFileInfo emptyScanState).files,
      ∃ m ∈ members, r = memberRowOf m := by
    intro r hr
    rcases hF r hr with h | h
    · simp [emptyScanState] at h
    · exact h
  have hfin : createIndexScan members =
      (members.foldl setFileInfo emptyScanState).parentfolders.foldl addSynthRow
        (members.foldl setFileInfo emptyScanState).files := rfl
  have hkeyholder : ∀ pr ∈ (members.foldl setFileInfo emptyScanState).parentfolders,
      ∃ r2 ∈ createIndexScan members, rowKey r2 = pr := by
    intro pr hpr
    rcases g3 pr hpr with ⟨r, hr, hkey⟩ | h
    · exact ⟨r, by rw [hfin]; exact g1 r hr, hkey⟩
    · exact ⟨synthRow pr.1 pr.2, by rw [hfin]; exact h, rfl⟩
  refine ⟨?_, ?_, ?_⟩
  · intro r hr
    rw [hfin] at hr
    rcases g2 r hr with hmem | ⟨pr, hpr, rfl⟩
    · obtain ⟨m, hm, rfl⟩ := hF2 r hmem
      rcases wf_dir_structure m.fullPath (hwf m hm) with hq0 | ⟨hqsplit, hqlen⟩
      · left
        exact hq0
      · right
        have hQlen : (splitSlash (dirOf m.fullPath)).length =
            (splitSlash m.fullPath).dropLast.length := by rw [hqsplit]
        have hlast_mem : (joinSlash ((splitSlash (dirOf m.fullPath)).take
              ((splitSlash (dirOf m.fullPath)).length - 1)),
            (splitSlash (dirOf m.fullPath)).getD
              ((splitSlash (dirOf m.fullPath)).length - 1) []) ∈
            ancestorPairsOf (dirOf m.fullPath) := by
          rw [mem_ancestorPairsOf]
          exact ⟨(splitSlash (dirOf m.fullPath)).length - 1, by omega, by omega, rfl⟩
        have hpf := (hPF2 _).mpr ⟨m, hm, hlast_mem⟩
        obtain ⟨r2, hr2, hkey2⟩ := hkeyholder _ hpf
        refine ⟨r2, hr2, ?_⟩
        have hp2 : r2.path = joinSlash ((splitSlash (dirOf m.fullPath)).take
            ((splitSlash (dirOf m.fullPath)).length - 1)) :=
          congrArg Prod.fst hkey2
        have hn2 : r2.name = (splitSlash (dirOf m.fullPath)).getD
            ((splitSlash (dirOf m.fullPath)).length - 1) [] :=
          congrArg Prod.snd hkey2
        rw [hp2, hn2,
          ancestorPair_join (splitSlash (dirOf m.fullPath))
            ((splitSlash (dirOf m.fullPath)).length - 1) (by omega) (by omega)]
        have htk : (splitSlash (dirOf m.fullPath)).take
            ((splitSlash (dirOf m.fullPath)).length - 1 + 1) =
            splitSlash (dirOf m.fullPath) := by
          apply List.take_of_length_le
          omega
        rw [htk, joinSlash_splitSlash]
        rfl
    · obtain ⟨m, hm, hpr_anc⟩ := (hPF2 pr).mp hpr
      rw [mem_ancestorPairsOf] at hpr_anc
      obtain ⟨i, hi1, hi2, rfl⟩ := hpr_anc
      rcases wf_dir_structure m.fullPath (hwf m hm) with hq0 | ⟨hqsplit, hqlen⟩
      · rw [hq0] at hi2
        simp [splitSlash] at hi2
        omega
      · by_cases hione : i = 1
        · left
          subst hione
          show joinSlash ((splitSlash (dirOf m.fullPath)).take 1) = []
          rw [hqsplit, wf_dropLast_head m.fullPath (hwf m hm) hqlen]
          rfl
        · right
          have hmem2 : (joinSlash ((splitSlash (dirOf m.fullPath)).take (i - 1)),
              (splitSlash (dirOf m.fullPath)).getD (i - 1) []) ∈
              ancestorPairsOf (dirOf m.fullPath) := by
            rw [mem_ancestorPairsOf]
            exact ⟨i - 1, by omega, by omega, rfl⟩
          have hpf2 := (hPF2 _).mpr ⟨m, hm, hmem2⟩
          obtain ⟨r2, hr2, hkey2⟩ := hkeyholder _ hpf2
          refine ⟨r2, hr2, ?_⟩
          have hp2 : r2.path = joinSlash ((splitSlash (dirOf m.fullPath)).take (i - 1)) :=
            congrArg Prod.fst hkey2
          have hn2 : r2.name = (splitSlash (dirOf m.fullPath)).getD (i - 1) [] :=
            congrArg Prod.snd hkey2
          rw [hp2, hn2,
            ancestorPair_join (splitSlash (dirOf m.fullPath)) (i - 1)
              (by omega) (by omega)]
          have : i - 1 + 1 = i := by omega
          rw [this]
          rfl
  · intro m hm pr hpr
    have hpf := (hPF2 pr).mpr ⟨m, hm, hpr⟩
    rcases g3 pr hpf with ⟨r, hr, hkey⟩ | h
    · obtain ⟨m2, hm2, rfl⟩ := hF2 r hr
      exact Or.inl ⟨m2, hm2, hkey⟩
    · right
      rw [hfin]
      exact h
  · intro m hm
    obtain ⟨r, hr, hkey⟩ := hM m hm
    obtain ⟨m2, hm2, hr2⟩ := hF2 r hr
    exact ⟨r, by rw [hfin]; exact g1 r hr, hkey, m2, hm2, hr2⟩

/-- Witness for C6 on a two-member archive with a genuine missing
intermediate directory (`/d/x` plus `/e`): instantiates the parent-chain
conjunct. -/
theorem createIndexScan_invariant_witness :
    (∀ m ∈ [c6memberAB], WFPath m.fullPath) ∧
    (∀ r ∈ createIndexScan [c6memberAB], r.path = [] ∨
      ∃ r2 ∈ createIndexScan [c6memberAB], r2.path ++ '/' :: r2.name = r.path) :=
  ⟨by
    intro m hm
    rcases List.mem_singleton.mp hm with rfl
    exact ⟨[['a'], ['b']], rfl, by simp, by simp⟩,
    (createIndexScan_invariant [c6memberAB] (by
      intro m hm
      rcases List.mem_singleton.mp hm with rfl
      exact ⟨[['a'], ['b']], rfl, by simp, by simp⟩)).1⟩

/-! ### C7: the recursive-TAR descent -/

/-- C7: for a regular member whose name ends in `.tar` under recursive
mode, the descent leaves the outer file-object position exactly where it
was, whatever the nested indexing run did and however it ended; on
success the recorded mode is the directory rewrite of the normal mode
and `istar` is set, and on failure mode and `istar` are exactly those of
the normal-file treatment (the last conjunct is the non-recursive
baseline the failure outcome coincides with). -/
theorem recursiveTar_frame
    (t : TarInfo) (mode0 pos globalOffset : Nat) (inner : Nat → Nat × Bool)
    (hfile : t.isfile = true) (htar : endsWithTar t.name = true) :
    (recursiveTarStep true t mode0 pos globalOffset inner).2.2 = pos ∧
    ((inner globalOffset).2 = true →
      recursiveTarStep true t mode0 pos globalOffset inner =
        (dirModeOf mode0, true, pos)) ∧
    ((inner globalOffset).2 = false →
      recursiveTarStep true t mode0 pos globalOffset inner = (mode0, false, pos)) ∧
    recursiveTarStep false t mode0 pos globalOffset inner = (mode0, false, pos) := by
  rcases h : inner globalOffset with ⟨q, ok⟩
  cases ok <;> simp [recursiveTarStep, hfile, htar, h]

/-- Witness for C7 with a nested run that moves the position far away
and succeeds. -/
theorem recursiveTar_frame_witness :
    c7tarInfo.isfile = true ∧ endsWithTar c7tarInfo.name = true ∧
    ((recursiveTarStep true c7tarInfo 0o100644 512 1024
        (fun n => (n + 4096, true))).2.2 = 512 ∧
      ((fun n => (n + 4096, true)) 1024).2 = true →
        recursiveTarStep true c7tarInfo 0o100644 512 1024
          (fun n => (n + 4096, true)) = (dirModeOf 0o100644, true, 512)) :=
  ⟨by decide, by decide,
    fun _ => (recursiveTar_frame c7tarInfo 0o100644 512 1024
      (fun n => (n + 4096, true)) (by decide) (by decide)).2.1 rfl⟩

/-! ### C8: table creation at the start of indexing -/

/-- C8 counterexample: an opened index database holding a single empty
`files` table.  No table among the five exists non-empty, so the claim
says the indexer proceeds, yet step 1 of `createIndex` raises. -/
theorem createIndex_counterexample :
    createIndexTableCheck [(.files, 0)] = .error .tableAlreadyExists ∧
    claimedCreateRejects [(.files, 0)] = false :=
  ⟨rfl, by decide⟩

/-- C8 amended: at the start of index creation the indexer creates only
the tables `files`, `filestmp` and `parentfolders`, and it rejects
exactly when one of these three already exists, empty or not; the
`versions` table is created at the end of the scan and the `metadata`
table after index creation, and their pre-existence produces only a
printed warning, never a rejection. -/
theorem createIndex_table_check (dbTables : List (TableName × Nat)) :
    (createIndexTableCheck dbTables = .error .tableAlreadyExists ↔
      (TableName.files ∈ dbTables.map Prod.fst ∨
        TableName.filestmp ∈ dbTables.map Prod.fst ∨
        TableName.parentfolders ∈ dbTables.map Prod.fst)) ∧
    ((createVersionsTable dbTables).2 = true ↔
      TableName.versions ∈ dbTables.map Prod.fst) ∧
    ((createMetadataTable dbTables).2 = true ↔
      TableName.metadata ∈ dbTables.map Prod.fst) ∧
    (TableName.files ∉ dbTables.map Prod.fst →
      TableName.filestmp ∉ dbTables.map Prod.fst →
      TableName.parentfolders ∉ dbTables.map Prod.fst →
      createIndexTableCheck dbTables =
        .ok (dbTables ++ [(.files, 0), (.filestmp, 0), (.parentfolders, 0)])) := by
  refine ⟨?_, ?_, ?_, ?_⟩
  · simp only [createIndexTableCheck]
    split_ifs with h
    · exact iff_of_true rfl (by simpa using h)
    · exact iff_of_false (by simp) (by simpa using h)
  · unfold createVersionsTable
    split_ifs with h
    · exact iff_of_true rfl (by simpa using h)
    · exact iff_of_false (by simp) (by simpa using h)
  · unfold createMetadataTable
    split_ifs with h
    · exact iff_of_true rfl (by simpa using h)
    · exact iff_of_false (by simp) (by simpa using h)
  · intro h1 h2 h3
    simp only [createIndexTableCheck]
    rw [if_neg]
    simp only [not_or]
    exact ⟨by simpa using h1, by simpa using h2, by simpa using h3⟩

/-- Witness for C8 on a database holding only a non-empty `versions`
table: creation proceeds and the versions step warns. -/
theorem createIndex_table_check_witness :
    (TableName.versions ∉ ([(TableName.versions, 3)].map Prod.fst) → False) ∧
    (TableName.files ∉ ([(TableName.versions, 3)].map Prod.fst) →
      TableName.filestmp ∉ ([(TableName.versions, 3)].map Prod.fst) →
      TableName.parentfolders ∉ ([(TableName.versions, 3)].map Prod.fst) →
      createIndexTableCheck [(TableName.versions, 3)] =
        .ok ([(TableName.versions, 3)] ++
          [(.files, 0), (.filestmp, 0), (.parentfolders, 0)])) :=
  ⟨fun h => h (by decide),
    (createIndex_table_check [(TableName.versions, 3)]).2.2.2⟩

/-! ### C9: the parent-folder cache -/

/-- C9: one call to `_tryAddParentFolders` from a cache of at most 16
entries leaves at most 16 entries; the resulting cache is the
concatenation of the old cache and the newly tried ancestors, truncated
to its last 8 entries exactly when it would exceed 16; the cache always
remains a suffix of that concatenation (the most recently tried
ancestors); the SQL inserts executed are exactly the ancestor pairs not
found in the cache, so cached ancestors are never re-inserted. -/
theorem parentFolderCache_invariant (st : ScanState) (path : List Char)
    (hlen : st.parentFolderCache.length ≤ 16) :
    (tryAddParentFolders st path).parentFolderCache.length ≤ 16 ∧
    (tryAddParentFolders st path).parentFolderCache =
      (if 16 < (st.parentFolderCache ++
          (ancestorPairsOf path).filter
            (fun p => decide (p ∉ st.parentFolderCache))).length then
        (st.parentFolderCache ++
          (ancestorPairsOf path).filter
            (fun p => decide (p ∉ st.parentFolderCache))).drop
          ((st.parentFolderCache ++
            (ancestorPairsOf path).filter
              (fun p => decide (p ∉ st.parentFolderCache))).length - 8)
      else
        st.parentFolderCache ++
          (ancestorPairsOf path).filter
            (fun p => decide (p ∉ st.parentFolderCache))) ∧
    (tryAddParentFolders st path).parentFolderCache <:+
      st.parentFolderCache ++
        (ancestorPairsOf path).filter (fun p => decide (p ∉ st.parentFolderCache)) ∧
    (tryAddParentFolders st path).parentfolders =
      ((ancestorPairsOf path).filter
        (fun p => decide (p ∉ st.parentFolderCache))).foldl
        insertOrIgnorePair st.parentfolders ∧
    ((ancestorPairsOf path).filter
      (fun p => decide (p ∉ st.parentFolderCache))).all
      (fun pr => decide (pr ∉ st.parentFolderCache)) = true := by
  have h5 : ((ancestorPairsOf path).filter
      (fun p => decide (p ∉ st.parentFolderCache))).all
      (fun pr => decide (pr ∉ st.parentFolderCache)) = true := by
    rw [List.all_eq_true]
    intro pr hpr
    exact (List.mem_filter.mp hpr).2
  rw [tryAddParentFolders_eq]
  by_cases hemp : ((ancestorPairsOf path).filter
      (fun p => decide (p ∉ st.parentFolderCache))).isEmpty = true
  · have hnil : (ancestorPairsOf path).filter
        (fun p => decide (p ∉ st.parentFolderCache)) = [] :=
      List.isEmpty_iff.mp hemp
    rw [if_pos hemp, hnil]
    simp only [List.append_nil, List.foldl_nil, List.all_nil]
    have hlt : ¬ 16 < st.parentFolderCache.length := by omega
    rw [if_neg hlt]
    refine ⟨hlen, ?_, ?_, ?_, ?_⟩ <;>
      first
        | rfl
        | trivial
  · rw [if_neg hemp]
    dsimp only
    refine ⟨?_, rfl, ?_, rfl, h5⟩
    · split_ifs with hb
      · rw [List.length_drop]
        omega
      · rw [List.length_append] at hb
        rw [List.length_append]
        omega
    · split_ifs
      · exact List.drop_suffix _ _
      · exact List.suffix_refl _

/-- Witness for C9: adding the ancestors of `/a/b` to the empty scan
state. -/
theorem parentFolderCache_invariant_witness :
    emptyScanState.parentFolderCache.length ≤ 16 ∧
    (tryAddParentFolders emptyScanState ['/', 'a', '/', 'b']).parentFolderCache.length
      ≤ 16 :=
  ⟨by decide,
    (parentFolderCache_invariant emptyScanState ['/', 'a', '/', 'b'] (by decide)).1⟩

end Ratarmount
